import Mathlib

/-!
# TrivialCompiler back end: stack-frame finaliser and assembly emitter

A shallow embedding of

* `src/passes/asm/compute_stack_info.cpp` (`compute_stack_info`), and
* `src/machine_code.cpp` (`operator<<` on a `MachineProgram`),

followed by theorems about the embedded functions.

Conventions of the embedding.

* `i32` values are integers; arithmetic that can leave the `i32` range is wrapped with
  `wrapI32`, and the conversion to `u32` is `toU32`.
* A fatal exit (`ERR_EXIT`, `UNREACHABLE`, a failed `assert`) is the `error` case of `Except`.
* Pointers into the owning tree are positions: a basic block is designated by
  (index of its function, index of the block), an instruction of a function by
  (index of its block, index of the instruction). The null pointer is `none`.
* The emitter returns the lines it writes as structured values (`Line`); `Line.render` gives
  the characters of each line. The printers of operands and conditions live in
  `machine_code.hpp`, which is not part of the sources at hand, and are parameters of `render`.
* `int count` of the data-section loop is a natural number: a global of the 32-bit target has
  fewer than `2^30` words, so the counter never reaches the end of the `int` range.
-/

namespace TrivialCompiler

/-! ## Machine integers -/

/-- Two's-complement wrap of an integer into the `i32` range `[-2^31, 2^31)`. -/
def wrapI32 (x : Int) : Int := (x + 2147483648) % 4294967296 - 2147483648

/-- The conversion `i32 → u32` (`u32 imm = x->rhs.value`). -/
def toU32 (x : Int) : Nat := (x % 4294967296).toNat

/-! ## Machine IR -/

/-- Modelled from the spec: `MachineOperand::State` is declared in `machine_code.hpp`; the
source names only `Immediate`, the other enumerators stand for the register kinds. -/
inductive OperandState where
  | PreColored
  | Allocated
  | Virtual
  | Immediate
  deriving DecidableEq

/-- Operand `MachineOperand { state, value }`; `operator==` is structural equality
(`operator==` is declared in `machine_code.hpp`, outside the sources at hand; the spec has an
operand a "tagged value", and equality of operands compares the tag and the value). -/
structure MachineOperand where
  state : OperandState
  value : Int
  deriving DecidableEq

/-- Test `MachineOperand::is_imm()`. -/
def MachineOperand.is_imm (o : MachineOperand) : Bool :=
  decide (o.state = OperandState.Immediate)

/-- Modelled from the spec: the condition enumeration is declared in `machine_code.hpp`;
only its identity is used here, so a condition is its enumerator value. -/
structure ArmCond where
  code : Nat
  deriving DecidableEq

/-- Operator tags `MachineInst::Tag` a `MIBinary` can carry: the six the emitter names, and
`Other` for every further enumerator (the emitter's final `else` branch). -/
inductive Tag where
  | Add
  | Sub
  | Mul
  | Mod
  | And
  | Or
  | Other (code : Nat)
  deriving DecidableEq

/-- A `MachineBB *`: (index of the function in the program, index of the block in it). -/
abbrev BBRef := Nat × Nat

/-- A `MachineInst *` into a function: (index of the block, index of the instruction). -/
abbrev InstRef := Nat × Nat

/-- The instruction variants (`dyn_cast` targets of the emitter's dispatch). -/
inductive MachineInst where
  | MIJump (target : BBRef)
  | MIBranch (cond : ArmCond) (target : BBRef)
  | MILoad (dst addr offset : MachineOperand) (shift : Int)
  | MIStore (data addr offset : MachineOperand) (shift : Int)
  | MIGlobal (dst : MachineOperand) (sym : String)
  | MIBinary (tag : Tag) (dst lhs rhs : MachineOperand)
  | MIUnary (tag : Tag) (dst rhs : MachineOperand)
  | MICompare (lhs rhs : MachineOperand)
  | MIMove (cond : ArmCond) (dst rhs : MachineOperand)
  | MIReturn
  | MICall (func : String)
  | MIComment (content : String)
  deriving DecidableEq

/-- Basic block `MachineBB`. `succ` may hold null entries; `control_transfer_inst` is the
position in `insts` of the designated instruction, if it is one of this block's. -/
structure MachineBB where
  insts : List MachineInst
  pred : List BBRef
  succ : List (Option BBRef)
  livein : List MachineOperand
  liveout : List MachineOperand
  liveuse : List MachineOperand
  defs : List MachineOperand
  control_transfer_inst : Option Nat
  deriving DecidableEq

/-- Function `MachineFunc`. `name` is `f->func->func->name`; `used_callee_saved_regs` is the
`std::set<ArmReg>`, a register being its number. -/
structure MachineFunc where
  name : String
  bb : List MachineBB
  used_callee_saved_regs : Finset Nat
  stack_size : Int
  sp_offset : Int
  sp_arg_fixup : List (Option InstRef)
  deriving DecidableEq

/-- A global declaration: its name and `flatten_init`, each entry being `expr->result`. -/
structure Decl where
  name : String
  flatten_init : List Int
  deriving DecidableEq

/-- Program `MachineProgram`. -/
structure MachineProgram where
  func : List MachineFunc
  glob_decl : List Decl
  deriving DecidableEq

/-- Modelled from the spec: the macros `ERR_EXIT` and `UNREACHABLE` are declared outside the
sources at hand; the spec has every one of their uses "fatal" and "non-recoverable", so each
ends the run: `codegenError` is `ERR_EXIT(CODEGEN_ERROR, ...)`, `unreachable` is
`UNREACHABLE()`, and `assertFailed` is an `assert` that does not hold (assertions enabled). -/
inductive Fatal where
  | codegenError
  | unreachable
  | assertFailed
  deriving DecidableEq

/-! ## Stack-frame finaliser: `compute_stack_info` -/

/-- Modelled from the spec: the enumerator `ArmReg::r4` (the `ArmReg` enumeration is declared
outside the sources at hand); the first register of "the designated callee-saved range",
register number 4. -/
def ArmReg.r4 : Int := 4

/-- Modelled from the spec: the enumerator `ArmReg::r11`, the last register of the
callee-saved range, register number 11. -/
def ArmReg.r11 : Int := 11

/-- The instruction a `MachineInst *` of the function designates, if any. -/
def MachineFunc.instAt (f : MachineFunc) (ref : InstRef) : Option MachineInst :=
  match f.bb[ref.1]? with
  | some bb => bb.insts[ref.2]?
  | none => none

/-- A write through a `MachineInst *`: the instruction at `ref` becomes `inst`. -/
def MachineFunc.setInst (f : MachineFunc) (ref : InstRef) (inst : MachineInst) : MachineFunc :=
  { f with bb := f.bb.modify (fun bb => { bb with insts := bb.insts.set ref.2 inst }) ref.1 }

/-- The loop `for (const auto &reg : def)`: every operand whose `value` lies between
`ArmReg::r4` and `ArmReg::r11` is inserted, as a register, into the set. -/
def scanDefs (used : Finset Nat) (defs : List MachineOperand) : Finset Nat :=
  defs.foldl (fun u reg =>
    if ArmReg.r4 ≤ reg.value ∧ reg.value ≤ ArmReg.r11 then insert reg.value.toNat u else u) used

/-- The loop over the instructions of a block. `get_def inst` is
`std::get<0>(get_def_use(inst))`; `get_def_use` is declared outside the sources at hand and
is a parameter. -/
def scanInsts (get_def : MachineInst → List MachineOperand) (used : Finset Nat)
    (insts : List MachineInst) : Finset Nat :=
  insts.foldl (fun u inst => scanDefs u (get_def inst)) used

/-- The loop over the blocks of the function. -/
def scanBBs (get_def : MachineInst → List MachineOperand) (used : Finset Nat)
    (bbs : List MachineBB) : Finset Nat :=
  bbs.foldl (fun u bb => scanInsts get_def u bb.insts) used

/-- The body of `for (auto &sp_arg_inst : f->sp_arg_fixup)`: `dyn_cast_nullable<MIMove>`
fails on the null pointer and on any instruction that is not a `MIMove` (a reference that
designates no instruction of the function is treated like the null pointer), the `assert`
fails on a right-hand side that is not an immediate, and otherwise
`x->rhs.value += f->stack_size + 4 * saved_regs` in `i32` arithmetic. -/
def fixupInst (f : MachineFunc) (saved_regs : Int) (sp_arg_inst : Option InstRef) :
    Except Fatal MachineFunc :=
  match sp_arg_inst with
  | none => .error Fatal.unreachable
  | some ref =>
    match f.instAt ref with
    | some (.MIMove cond dst rhs) =>
      if rhs.is_imm = true then
        .ok (f.setInst ref (.MIMove cond dst
          { rhs with value :=
              wrapI32 (rhs.value + wrapI32 (f.stack_size + wrapI32 (4 * saved_regs))) }))
      else .error Fatal.assertFailed
    | _ => .error Fatal.unreachable

/-- The loop over `f->sp_arg_fixup`. -/
def fixupAll (saved_regs : Int) : List (Option InstRef) → MachineFunc → Except Fatal MachineFunc
  | [], f => .ok f
  | sp_arg_inst :: rest, f =>
    match fixupInst f saved_regs sp_arg_inst with
    | .error e => .error e
    | .ok f1 => fixupAll saved_regs rest f1

/-- The function `compute_stack_info(MachineFunc *f)`: the function as the pass leaves it, or
the fatal exit. -/
def compute_stack_info (get_def : MachineInst → List MachineOperand) (f : MachineFunc) :
    Except Fatal MachineFunc :=
  let f1 : MachineFunc :=
    { f with used_callee_saved_regs := scanBBs get_def f.used_callee_saved_regs f.bb }
  let saved_regs : Int := (f1.used_callee_saved_regs.card : Int) + 1
  fixupAll saved_regs f1.sp_arg_fixup f1

/-! ## Emitted lines -/

/-- The offset part of a load or store line: `#offset`, or `offset, LSL #shift`. -/
inductive AccessOffset where
  | imm (offset : Int)
  | reg (offset : MachineOperand) (shift : Int)
  deriving DecidableEq

/-- One line of the assembly text, as the emitter writes it. Block labels carry the index
`bb_index` gave; the comments on each constructor of `Line.render` show the characters. -/
inductive Line where
  | sectionText
  | funcGlobal (name : String)
  | funcType (name : String)
  | label (name : String)
  | stmfd
  | movFp
  | subSp (sp_offset : Int)
  | bbLabel (index : Nat)
  | bbInfo (pred succ : List Nat) (livein liveout liveuse defs : List MachineOperand)
  | controlTransfer
  | b (target : Nat)
  | bCond (cond : ArmCond) (target : Nat)
  | access (inst_name : String) (data addr : MachineOperand) (offset : AccessOffset)
  | ldrGlobal (dst : MachineOperand) (sym : String)
  | binary (op : String) (dst lhs rhs : MachineOperand)
  | cmp (lhs rhs : MachineOperand)
  | movw (dst low_operand : MachineOperand)
  | movt (dst high_operand : MachineOperand)
  | mov (cond : ArmCond) (dst rhs : MachineOperand)
  | addSp (sp_offset : Int)
  | ldmfd
  | blx (func : String)
  | comment (content : String)
  | sectionData
  | align
  | declGlobal (name : String)
  | declType (name : String)
  | fill (count : Nat) (last : Int)
  | long (last : Int)
  deriving DecidableEq

/-- The label prefix `BB_PREFIX`. -/
def BB_PREFIX : String := "_BB"

/-- What `pb` writes for a block whose index is `n`. -/
def pb (n : Nat) : String := BB_PREFIX ++ toString n

/-- A sequence of items, each written after one blank (`os << " " << item`). -/
def spaced {α : Type} (f : α → String) (xs : List α) : String :=
  String.join (xs.map (fun x => " " ++ f x))

/-- The characters of a line. `showOp` and `showCond` are the stream printers of
`MachineOperand` and of the condition, both declared outside the sources at hand. -/
def Line.render (showOp : MachineOperand → String) (showCond : ArmCond → String) :
    Line → String
  | .sectionText => ".section .text\n"
  | .funcGlobal name => "\n.global " ++ name ++ "\n"
  | .funcType name => "\t.type\t" ++ name ++ ", %function\n"
  | .label name => name ++ ":\n"
  | .stmfd => "\tstmfd\tsp!, \x7br4-r11,lr\x7d\n"
  | .movFp => "\tmov\tr11, sp\n"
  | .subSp off => "\tadd\tsp, sp, #-" ++ toString off ++ "\n"
  | .bbLabel n => pb n ++ ":\n"
  | .bbInfo pred succ livein liveout liveuse defs =>
      "@ pred:" ++ spaced pb pred ++ ", succ:" ++ spaced pb succ
        ++ ", livein:" ++ spaced showOp livein ++ ", liveout:" ++ spaced showOp liveout
        ++ ", liveuse:" ++ spaced showOp liveuse ++ ", def:" ++ spaced showOp defs ++ "\n"
  | .controlTransfer => "@ control transfer\n"
  | .b n => "\tb\t" ++ pb n ++ "\n"
  | .bCond c n => "\tb" ++ showCond c ++ "\t" ++ pb n ++ "\n"
  | .access inst_name data addr (.imm offset) =>
      "\t" ++ inst_name ++ "\t" ++ showOp data ++ ", [" ++ showOp addr ++ ", #"
        ++ toString offset ++ "]\n"
  | .access inst_name data addr (.reg offset shift) =>
      "\t" ++ inst_name ++ "\t" ++ showOp data ++ ", [" ++ showOp addr ++ ", "
        ++ showOp offset ++ ", LSL #" ++ toString shift ++ "]\n"
  | .ldrGlobal dst sym => "\tldr\t" ++ showOp dst ++ ", =" ++ sym ++ "\n"
  | .binary op dst lhs rhs =>
      "\t" ++ op ++ "\t" ++ showOp dst ++ ", " ++ showOp lhs ++ ", " ++ showOp rhs ++ "\n"
  | .cmp lhs rhs => "\tcmp\t" ++ showOp lhs ++ ", " ++ showOp rhs ++ "\n"
  | .movw dst low => "\tmovw\t" ++ showOp dst ++ ", " ++ showOp low ++ "\n"
  | .movt dst high => "\tmovt\t" ++ showOp dst ++ ", " ++ showOp high ++ "\n"
  | .mov c dst rhs => "\tmov" ++ showCond c ++ "\t" ++ showOp dst ++ ", " ++ showOp rhs ++ "\n"
  | .addSp off => "\tadd\tsp, sp, #" ++ toString off ++ "\n"
  | .ldmfd => "\tldmfd\t sp!, \x7br4-r11,pc\x7d\n"
  | .blx func => "\tblx\t" ++ func ++ "\n"
  | .comment content => "\t@ " ++ content ++ "\n"
  | .sectionData => "\n\n.section .data\n"
  | .align => ".align 4\n"
  | .declGlobal name => "\n.global " ++ name ++ "\n"
  | .declType name => "\t.type\t" ++ name ++ ", %object\n"
  | .fill count last => "\t.fill\t" ++ toString count ++ ", 4, " ++ toString last ++ "\n"
  | .long last => "\t.long\t" ++ toString last ++ "\n"

/-- The text of a sequence of lines. -/
def renderLines (showOp : MachineOperand → String) (showCond : ArmCond → String)
    (ls : List Line) : String :=
  String.join (ls.map (Line.render showOp showCond))

/-! ## Block labels -/

/-- Modelled from the spec: `IndexMapper` (declared outside the sources at hand) is the
"local index map from block handle to assigned label number", indices being "assigned in
traversal order": the handle at position `i` of `mapping` has index `i`. -/
structure IndexMapper where
  mapping : List BBRef
  deriving DecidableEq

/-- Modelled from the spec: the call `bb_index.get(bb)` of the absent `IndexMapper` gives the
index `bb` already has, or assigns it the next free one ("a deterministic index assigned in
traversal order"). -/
def IndexMapper.get (m : IndexMapper) (bb : BBRef) : Nat × IndexMapper :=
  if bb ∈ m.mapping then (m.mapping.indexOf bb, m)
  else (m.mapping.length, { mapping := m.mapping ++ [bb] })

/-- The indices of a sequence of blocks, asked for one after the other. -/
def IndexMapper.getAll (m : IndexMapper) : List BBRef → List Nat × IndexMapper
  | [] => ([], m)
  | bb :: rest =>
    let r := m.get bb
    let rs := IndexMapper.getAll r.2 rest
    (r.1 :: rs.1, rs.2)

/-! ## Code section: the instruction dispatch of `operator<<` -/

/-- The line of a `MIAccess` (`ldr` for `MILoad`, `str` for `MIStore`): with an immediate
offset the printed number is `x->offset.value << x->shift`. -/
def accessLine (inst_name : String) (data addr offset : MachineOperand) (shift : Int) : Line :=
  if offset.state = OperandState.Immediate then
    Line.access inst_name data addr (AccessOffset.imm (wrapI32 (offset.value * 2 ^ shift.toNat)))
  else
    Line.access inst_name data addr (AccessOffset.reg offset shift)

/-- The body of `for (auto inst = bb->insts.head; ...)` after the control-transfer marker, for
one instruction: the lines written, the label map afterwards, and the instruction as the
emitter leaves it (the `MIBinary` case swaps `x->lhs` and `x->rhs` in place).
`can_encode_imm` is declared outside the sources at hand and is a parameter; `sp_offset` is
`f->sp_offset`. -/
def emitInst (can_encode_imm : Int → Bool) (sp_offset : Int) (bb_index : IndexMapper) :
    MachineInst → Except Fatal (List Line × IndexMapper × MachineInst)
  | .MIJump target =>
    let r := bb_index.get target
    .ok ([Line.b r.1], r.2, .MIJump target)
  | .MIBranch cond target =>
    let r := bb_index.get target
    .ok ([Line.bCond cond r.1], r.2, .MIBranch cond target)
  | .MILoad dst addr offset shift =>
    .ok ([accessLine "ldr" dst addr offset shift], bb_index, .MILoad dst addr offset shift)
  | .MIStore data addr offset shift =>
    .ok ([accessLine "str" data addr offset shift], bb_index, .MIStore data addr offset shift)
  | .MIGlobal dst sym => .ok ([Line.ldrGlobal dst sym], bb_index, .MIGlobal dst sym)
  | .MIBinary tag dst lhs rhs =>
    match tag with
    | .Mul =>
      if dst = lhs then
        if dst = rhs then .error Fatal.codegenError
        else .ok ([Line.binary "mul" dst rhs lhs], bb_index, .MIBinary .Mul dst rhs lhs)
      else .ok ([Line.binary "mul" dst lhs rhs], bb_index, .MIBinary .Mul dst lhs rhs)
    | .Add => .ok ([Line.binary "add" dst lhs rhs], bb_index, .MIBinary .Add dst lhs rhs)
    | .Sub => .ok ([Line.binary "sub" dst lhs rhs], bb_index, .MIBinary .Sub dst lhs rhs)
    | .Mod => .ok ([Line.binary "mod" dst lhs rhs], bb_index, .MIBinary .Mod dst lhs rhs)
    | .And => .ok ([Line.binary "and" dst lhs rhs], bb_index, .MIBinary .And dst lhs rhs)
    | .Or => .ok ([Line.binary "orr" dst lhs rhs], bb_index, .MIBinary .Or dst lhs rhs)
    | .Other _ => .error Fatal.unreachable
  | .MIUnary _ _ _ => .error Fatal.unreachable
  | .MICompare lhs rhs => .ok ([Line.cmp lhs rhs], bb_index, .MICompare lhs rhs)
  | .MIMove cond dst rhs =>
    if rhs.state = OperandState.Immediate ∧ can_encode_imm rhs.value = false then
      let imm : Nat := toU32 rhs.value
      let low_operand : MachineOperand :=
        { state := OperandState.Immediate, value := wrapI32 (imm &&& 0xffff : Nat) }
      let high_operand : MachineOperand :=
        { state := OperandState.Immediate, value := wrapI32 (imm >>> 16 : Nat) }
      .ok (Line.movw dst low_operand :: (if imm > 0xffff then [Line.movt dst high_operand] else []),
        bb_index, .MIMove cond dst rhs)
    else .ok ([Line.mov cond dst rhs], bb_index, .MIMove cond dst rhs)
  | .MIReturn => .ok ([Line.addSp sp_offset, Line.ldmfd], bb_index, .MIReturn)
  | .MICall func => .ok ([Line.blx func], bb_index, .MICall func)
  | .MIComment content => .ok ([Line.comment content], bb_index, .MIComment content)

/-- The loop over the instructions of a block; `i` is the position of the head of the list in
the block and `cti` is `bb->control_transfer_inst`. -/
def emitInsts (can_encode_imm : Int → Bool) (sp_offset : Int) (cti : Option Nat) :
    Nat → List MachineInst → IndexMapper →
      Except Fatal (List Line × IndexMapper × List MachineInst)
  | _, [], bb_index => .ok ([], bb_index, [])
  | i, inst :: rest, bb_index =>
    match emitInst can_encode_imm sp_offset bb_index inst with
    | .error e => .error e
    | .ok (ls, m1, inst1) =>
      match emitInsts can_encode_imm sp_offset cti (i + 1) rest m1 with
      | .error e => .error e
      | .ok (ls2, m2, rest1) =>
        .ok ((if cti = some i then [Line.controlTransfer] else []) ++ ls ++ ls2, m2,
          inst1 :: rest1)

/-- One block: its label, the comment line, then its instructions. `self` is the block's own
handle. -/
def emitBB (can_encode_imm : Int → Bool) (sp_offset : Int) (self : BBRef) (bb : MachineBB)
    (bb_index : IndexMapper) : Except Fatal (List Line × IndexMapper × MachineBB) :=
  let own := bb_index.get self
  let preds := own.2.getAll bb.pred
  let succs := preds.2.getAll bb.succ.reduceOption
  match emitInsts can_encode_imm sp_offset bb.control_transfer_inst 0 bb.insts succs.2 with
  | .error e => .error e
  | .ok (ls, m, insts1) =>
    .ok (Line.bbLabel own.1
          :: Line.bbInfo preds.1 succs.1 bb.livein bb.liveout bb.liveuse bb.defs :: ls,
        m, { bb with insts := insts1 })

/-- The loop over the blocks of function number `fi`; `bi` is the position of the head. -/
def emitBBs (can_encode_imm : Int → Bool) (sp_offset : Int) (fi : Nat) :
    Nat → List MachineBB → IndexMapper →
      Except Fatal (List Line × IndexMapper × List MachineBB)
  | _, [], bb_index => .ok ([], bb_index, [])
  | bi, bb :: rest, bb_index =>
    match emitBB can_encode_imm sp_offset (fi, bi) bb bb_index with
    | .error e => .error e
    | .ok (ls, m1, bb1) =>
      match emitBBs can_encode_imm sp_offset fi (bi + 1) rest m1 with
      | .error e => .error e
      | .ok (ls2, m2, rest1) => .ok (ls ++ ls2, m2, bb1 :: rest1)

/-- One function: symbol lines, the fixed prologue, then its blocks. -/
def emitFunc (can_encode_imm : Int → Bool) (fi : Nat) (f : MachineFunc)
    (bb_index : IndexMapper) : Except Fatal (List Line × IndexMapper × MachineFunc) :=
  match emitBBs can_encode_imm f.sp_offset fi 0 f.bb bb_index with
  | .error e => .error e
  | .ok (ls, m, bb1) =>
    .ok ([Line.funcGlobal f.name, Line.funcType f.name, Line.label f.name, Line.stmfd,
          Line.movFp, Line.subSp f.sp_offset] ++ ls,
        m, { f with bb := bb1 })

/-- The loop over the functions of the program; `fi` is the position of the head. -/
def emitFuncs (can_encode_imm : Int → Bool) :
    Nat → List MachineFunc → IndexMapper →
      Except Fatal (List Line × IndexMapper × List MachineFunc)
  | _, [], bb_index => .ok ([], bb_index, [])
  | fi, f :: rest, bb_index =>
    match emitFunc can_encode_imm fi f bb_index with
    | .error e => .error e
    | .ok (ls, m1, f1) =>
      match emitFuncs can_encode_imm (fi + 1) rest m1 with
      | .error e => .error e
      | .ok (ls2, m2, rest1) => .ok (ls ++ ls2, m2, f1 :: rest1)

/-! ## Data section: the run-length loop of `operator<<` -/

/-- The locals of the loop over `decl->flatten_init`, and the lines written so far. -/
structure ValuesState where
  count : Nat
  initialized : Bool
  last : Int
  out : List Line
  deriving DecidableEq

/-- The lambda `print_values`: one `.fill` when `count > 1`, one `.long` otherwise. -/
def print_values (s : ValuesState) : Line :=
  if s.count > 1 then Line.fill s.count s.last else Line.long s.last

/-- One iteration of `for (auto expr : decl->flatten_init)`, `result` being `expr->result`. -/
def valuesStep (s : ValuesState) (result : Int) : ValuesState :=
  let s1 : ValuesState :=
    if !s.initialized then { s with initialized := true, last := result } else s
  if result = s1.last then
    { s1 with count := s1.count + 1 }
  else
    { s1 with out := s1.out ++ [print_values s1], last := result, count := 1 }

/-- The data directives of one global: the loop, then the closing `print_values()`. -/
def emitValues (flatten_init : List Int) : List Line :=
  let s := flatten_init.foldl valuesStep
    { count := 0, initialized := false, last := 0, out := [] }
  s.out ++ [print_values s]

/-- Lines of one global: `.global`, `.type`, the label, then its data directives. -/
def emitDecl (decl : Decl) : List Line :=
  [Line.declGlobal decl.name, Line.declType decl.name, Line.label decl.name]
    ++ emitValues decl.flatten_init

/-- The data section. -/
def emitData (glob_decl : List Decl) : List Line :=
  [Line.sectionData, Line.align] ++ (glob_decl.map emitDecl).flatten

/-- Reading data directives back (the assembler's view): `.fill N, 4, V` is `N` copies of
`V`, `.long V` is one `V`; lines that are not data directives hold no words. -/
def decodeValues : List Line → List Int
  | [] => []
  | Line.fill n v :: ls => List.replicate n v ++ decodeValues ls
  | Line.long v :: ls => v :: decodeValues ls
  | _ :: ls => decodeValues ls

/-- The function `operator<<(std::ostream &, const MachineProgram &)`: the lines written and
the program as the run leaves it, or the fatal exit. `bb_index` is local to the call. -/
def emit (can_encode_imm : Int → Bool) (p : MachineProgram) :
    Except Fatal (List Line × MachineProgram) :=
  match emitFuncs can_encode_imm 0 p.func { mapping := [] } with
  | .error e => .error e
  | .ok (ls, _, func1) =>
    .ok (Line.sectionText :: ls ++ emitData p.glob_decl, { p with func := func1 })

/-- The text `operator<<` writes, with the program as the run leaves it. -/
def emitText (showOp : MachineOperand → String) (showCond : ArmCond → String)
    (can_encode_imm : Int → Bool) (p : MachineProgram) :
    Except Fatal (String × MachineProgram) :=
  match emit can_encode_imm p with
  | .error e => .error e
  | .ok (ls, p1) => .ok (renderLines showOp showCond ls, p1)

/-- The directive of one maximal run: `.fill` with its length when it is longer than one
word, `.long` otherwise (the spec's "runs of length > 1 collapse to a single fill directive;
runs of length 1 emit a single word-value directive"). -/
def runDirective (run : List Int) : Line :=
  if run.length > 1 then Line.fill run.length (run.headD 0) else Line.long (run.headD 0)

/-- The maximal runs of equal adjacent values of a sequence, in order. -/
def maximalRuns (vals : List Int) : List (List Int) :=
  vals.splitBy (fun a b => a == b)

/-- The value a data directive carries. -/
def Line.dataValue : Line → Option Int
  | Line.fill _ v => some v
  | Line.long v => some v
  | _ => none

/-- The lines of a global once the loop is in state `s`: the rest of the loop over `l`, then
the closing `print_values()`. -/
def finishValues (s : ValuesState) (l : List Int) : List Line :=
  (l.foldl valuesStep s).out ++ [print_values (l.foldl valuesStep s)]

/-- Adjacent data directives carry different values. -/
def DistinctAdjacent (ls : List Line) : Prop :=
  List.Chain' (fun a b => a.dataValue ≠ b.dataValue) ls

/-! ## Definitions used to state the theorems -/

/-- Modelled from the spec: `can_encode_imm` is declared outside the sources at hand; this is
the glossary's "modified immediate encoding", an 8-bit value rotated by an even number of bit
positions within a 32-bit word. The theorems take `can_encode_imm` as a parameter; this
instance serves the concrete examples. -/
def armModifiedImmediate (v : Int) : Bool :=
  (List.range 16).any (fun k =>
    decide (((toU32 v <<< (2 * k)) ||| (toU32 v >>> (32 - 2 * k))) % 4294967296 < 256))

/-- Abstract execution of one line on a register file holding 32-bit words: `movw` sets the
register to its 16-bit operand with a zero upper half, `movt` replaces the upper half of the
register by its 16-bit operand and keeps the lower half; other lines are not interpreted. -/
def execLine (regs : MachineOperand → Nat) : Line → MachineOperand → Nat
  | Line.movw dst low => Function.update regs dst (toU32 low.value % 65536)
  | Line.movt dst high =>
    Function.update regs dst (regs dst % 65536 + 65536 * (toU32 high.value % 65536))
  | _ => regs

/-- Abstract execution of a sequence of lines, first to last. -/
def execLines (regs : MachineOperand → Nat) (ls : List Line) : MachineOperand → Nat :=
  ls.foldl execLine regs

/-- The operands printed on the line of a `MIBinary`, in the order printed: destination,
first source, second source. -/
def Line.binaryOperands : Line → Option (MachineOperand × MachineOperand × MachineOperand)
  | Line.binary _ dst lhs rhs => some (dst, lhs, rhs)
  | _ => none

/-- The instruction as a completed emission leaves it: a `Mul` whose `dst` equals its `lhs` has
`lhs` and `rhs` exchanged, every other instruction is as it was. -/
def mulSwapped : MachineInst → MachineInst
  | .MIBinary .Mul dst lhs rhs =>
    if dst = lhs then .MIBinary .Mul dst rhs lhs else .MIBinary .Mul dst lhs rhs
  | inst => inst

/-- The program with `g` applied to every instruction of every block of every function, and
nothing else changed. -/
def MachineProgram.mapInsts (g : MachineInst → MachineInst) (p : MachineProgram) :
    MachineProgram :=
  { p with func := p.func.map (fun f =>
      { f with bb := f.bb.map (fun bb => { bb with insts := bb.insts.map g }) }) }

/-- The lines the claim on the split path describes for a 32-bit immediate `v` moved into
`dst`: `movw dst, lo` with `lo = v mod 2^16`, then `movt dst, hi` with `hi = v div 2^16`
exactly when `hi` is not zero, `v` being read as an unsigned 32-bit number. -/
def splitMoveLines (dst : MachineOperand) (v : Int) : List Line :=
  Line.movw dst { state := OperandState.Immediate, value := (toU32 v % 65536 : Nat) }
    :: (if toU32 v / 65536 ≠ 0 then
          [Line.movt dst { state := OperandState.Immediate, value := (toU32 v / 65536 : Nat) }]
        else [])

/-- The registers of `r4..r11` that some instruction of the function defines: those `r` for
which an operand of value `r` is among the defined operands of an instruction of a block. -/
def definedCalleeSaved (get_def : MachineInst → List MachineOperand) (f : MachineFunc) :
    Finset Nat :=
  (Finset.Icc 4 11).filter (fun r =>
    ∃ bb ∈ f.bb, ∃ inst ∈ bb.insts, ∃ reg ∈ get_def inst, reg.value = (r : Int))

/-- The instruction with `amount` added, in `i32` arithmetic, to the right-hand side of a
`MIMove`; any other instruction as it is. -/
def addToMoveImm (amount : Int) : MachineInst → MachineInst
  | .MIMove cond dst rhs => .MIMove cond dst { rhs with value := wrapI32 (rhs.value + amount) }
  | inst => inst

/-- The registers a line pushes, by number: the prologue line `stmfd sp!, {r4-r11,lr}` pushes
`r4` to `r11` and `lr` (register 14); no other line the emitter writes pushes any. -/
def Line.pushedRegs : Line → List Nat
  | Line.stmfd => [4, 5, 6, 7, 8, 9, 10, 11, 14]
  | _ => []

/-- The registers a line pops, by number: the epilogue line `ldmfd sp!, {r4-r11,pc}` pops
`r4` to `r11` and `pc` (register 15); no other line the emitter writes pops any. -/
def Line.poppedRegs : Line → List Nat
  | Line.ldmfd => [4, 5, 6, 7, 8, 9, 10, 11, 15]
  | _ => []

/-- The instruction is a `MIMove` whose right-hand side is an immediate. -/
def isMoveImm : MachineInst → Bool
  | .MIMove _ _ rhs => rhs.is_imm
  | _ => false

/-- The fixup entry has the expected shape: it is not null and designates a `MIMove` of the
function whose right-hand side is an immediate. -/
def fixupWellShaped (f : MachineFunc) (sp_arg_inst : Option InstRef) : Bool :=
  match sp_arg_inst with
  | none => false
  | some ref =>
    match f.instAt ref with
    | some inst => isMoveImm inst
    | none => false

/-- The value of `f->stack_size + 4 * saved_regs` in `i32` arithmetic. -/
def fixupAmount (stack_size saved_regs : Int) : Int :=
  wrapI32 (stack_size + wrapI32 (4 * saved_regs))

/-- The block without its instructions: everything but `insts`. -/
def MachineBB.frame (bb : MachineBB) : MachineBB := { bb with insts := [] }

/-- The blocks an instruction prints a label of: the target of a `Jump` or a `Branch`. -/
def MachineInst.printedBlocks : MachineInst → List BBRef
  | .MIJump target => [target]
  | .MIBranch _ target => [target]
  | _ => []

/-- The blocks whose label is printed while the block `self` is emitted, in the order
printed: the block itself (its label line), its predecessors and its non-null successors (the
comment line), then the targets of its jumps and branches. -/
def MachineBB.printedBlocks (self : BBRef) (bb : MachineBB) : List BBRef :=
  self :: (bb.pred ++ (bb.succ.reduceOption
    ++ (bb.insts.map MachineInst.printedBlocks).flatten))

/-- The blocks whose label is printed for the blocks of function number `fi`, from block
number `bi` on. -/
def printedBlocksBBs (fi : Nat) : Nat → List MachineBB → List BBRef
  | _, [] => []
  | bi, bb :: rest => bb.printedBlocks (fi, bi) ++ printedBlocksBBs fi (bi + 1) rest

/-- The blocks whose label is printed for the functions of a program, from function number
`fi` on. -/
def printedBlocksFuncs : Nat → List MachineFunc → List BBRef
  | _, [] => []
  | fi, f :: rest => printedBlocksBBs fi 0 f.bb ++ printedBlocksFuncs (fi + 1) rest

/-- Every occurrence of a block in the text of a program, in the order printed. -/
def MachineProgram.printedBlocks (p : MachineProgram) : List BBRef :=
  printedBlocksFuncs 0 p.func

/-- The register `r0`. -/
def r0 : MachineOperand := { state := OperandState.PreColored, value := 0 }

/-- The register `r1`. -/
def r1 : MachineOperand := { state := OperandState.PreColored, value := 1 }

/-- A printer of operands for the concrete examples: `#value` for an immediate, `rN` for a
register. -/
def showOperand (o : MachineOperand) : String :=
  (if o.state = OperandState.Immediate then "#" else "r") ++ toString o.value

/-- A printer of conditions for the concrete examples: the empty suffix. -/
def showCondition (_c : ArmCond) : String := ""

/-- A program of one function `f` with one block: `Mul` with `dst = lhs = r0`, `rhs = r1`,
then `Return`. -/
def mulProgram : MachineProgram :=
  { func := [{ name := "f",
               bb := [{ insts := [.MIBinary .Mul r0 r0 r1, .MIReturn],
                        pred := [], succ := [], livein := [], liveout := [], liveuse := [],
                        defs := [], control_transfer_inst := some 1 }],
               used_callee_saved_regs := ∅, stack_size := 0, sp_offset := 0,
               sp_arg_fixup := [] }],
    glob_decl := [] }

/-- The program `mulProgram` with the sources of its `Mul` exchanged. -/
def mulProgramAfter : MachineProgram :=
  { func := [{ name := "f",
               bb := [{ insts := [.MIBinary .Mul r0 r1 r0, .MIReturn],
                        pred := [], succ := [], livein := [], liveout := [], liveuse := [],
                        defs := [], control_transfer_inst := some 1 }],
               used_callee_saved_regs := ∅, stack_size := 0, sp_offset := 0,
               sp_arg_fixup := [] }],
    glob_decl := [] }

/-- The text of `mulProgram`. -/
def mulProgramText : String :=
  ".section .text\n\n.global f\n\t.type\tf, %function\nf:\n\tstmfd\tsp!, \x7br4-r11,lr\x7d\n\tmov\tr11, sp\n\tadd\tsp, sp, #-0\n_BB0:\n@ pred:, succ:, livein:, liveout:, liveuse:, def:\n\tmul\tr0, r1, r0\n@ control transfer\n\tadd\tsp, sp, #0\n\tldmfd\t sp!, \x7br4-r11,pc\x7d\n\n\n.section .data\n.align 4\n"

/-- A def-set function for the concrete examples: the destination of a move, binary, unary,
load or global-address instruction, and nothing for the other instructions. -/
def exampleGetDef : MachineInst → List MachineOperand
  | .MIMove _ dst _ => [dst]
  | .MIBinary _ dst _ _ => [dst]
  | .MIUnary _ dst _ => [dst]
  | .MILoad dst _ _ _ => [dst]
  | .MIGlobal dst _ => [dst]
  | _ => []

/-- A function of one block, `mov r0, #imm` then `Return`, that defines no callee-saved
register; its fixup list holds the move; `stack_size` is 0. -/
def fixupFunc (imm : Int) : MachineFunc :=
  { name := "f",
    bb := [{ insts := [.MIMove { code := 0 } r0 { state := OperandState.Immediate, value := imm },
                       .MIReturn],
             pred := [], succ := [], livein := [], liveout := [], liveuse := [], defs := [],
             control_transfer_inst := some 1 }],
    used_callee_saved_regs := ∅, stack_size := 0, sp_offset := 0,
    sp_arg_fixup := [some (0, 0)] }

/-- The function `fixupFunc imm` with `stack_size` -4: it defines no callee-saved register,
so the amount `stack_size + 4 * (0 + 1)` is 0. -/
def zeroAmountFunc (imm : Int) : MachineFunc :=
  { fixupFunc imm with stack_size := -4 }

/-- A function of one block, `mov r0, #imm`, `mov r4, #8`, `Return`, with `stack_size` 16;
its fixup list holds the first move; `used` is the set of callee-saved registers on entry. -/
def calleeFunc (imm : Int) (used : Finset Nat) : MachineFunc :=
  { name := "g",
    bb := [{ insts := [.MIMove { code := 0 } r0 { state := OperandState.Immediate, value := imm },
                       .MIMove { code := 0 } { state := OperandState.PreColored, value := 4 }
                         { state := OperandState.Immediate, value := 8 },
                       .MIReturn],
             pred := [], succ := [], livein := [], liveout := [], liveuse := [], defs := [],
             control_transfer_inst := some 2 }],
    used_callee_saved_regs := used, stack_size := 16, sp_offset := 16,
    sp_arg_fixup := [some (0, 0)] }

/-- A program of one function with one block: a `Unary` then `Return`. -/
def unaryProgram : MachineProgram :=
  { func := [{ name := "f",
               bb := [{ insts := [.MIUnary (.Other 0) r0 r1, .MIReturn],
                        pred := [], succ := [], livein := [], liveout := [], liveuse := [],
                        defs := [], control_transfer_inst := some 1 }],
               used_callee_saved_regs := ∅, stack_size := 0, sp_offset := 0,
               sp_arg_fixup := [] }],
    glob_decl := [] }

/-- A function whose only fixup designates `mov r0, r1`, a `Move` whose right-hand side is a
register. -/
def registerFixupFunc : MachineFunc :=
  { name := "f",
    bb := [{ insts := [.MIMove { code := 0 } r0 r1, .MIReturn],
             pred := [], succ := [], livein := [], liveout := [], liveuse := [], defs := [],
             control_transfer_inst := some 1 }],
    used_callee_saved_regs := ∅, stack_size := 0, sp_offset := 0,
    sp_arg_fixup := [some (0, 0)] }

theorem decodeValues_append (a b : List Line) :
    decodeValues (a ++ b) = decodeValues a ++ decodeValues b := by
  induction a with
  | nil => rfl
  | cons x xs ih => cases x <;> simp [decodeValues, ih]

theorem decodeValues_print_values (s : ValuesState) (h : 1 ≤ s.count) :
    decodeValues [print_values s] = List.replicate s.count s.last := by
  unfold print_values
  by_cases hc : s.count > 1
  · simp [hc, decodeValues]
  · have h1 : s.count = 1 := by omega
    simp [h1, decodeValues]

/-- What `valuesStep` does once the loop is past its first entry. -/
theorem valuesStep_initialized (c : Nat) (v : Int) (o : List Line) (x : Int) :
    valuesStep { count := c, initialized := true, last := v, out := o } x
      = if x = v then { count := c + 1, initialized := true, last := v, out := o }
        else { count := 1, initialized := true, last := x,
               out := o ++ [print_values { count := c, initialized := true, last := v, out := o }] } := by
  simp [valuesStep]

theorem valuesStep_first (x : Int) :
    valuesStep { count := 0, initialized := false, last := 0, out := [] } x
      = { count := 1, initialized := true, last := x, out := [] } := by
  simp [valuesStep]

theorem emitValues_cons (x : Int) (l : List Int) :
    emitValues (x :: l)
      = finishValues { count := 1, initialized := true, last := x, out := [] } l := by
  simp [emitValues, finishValues, valuesStep_first]

/-- Loop invariant of the run-length loop, read through `decodeValues`. -/
theorem decodeValues_finishValues (l : List Int) (c : Nat) (v : Int) (o : List Line)
    (hc : 1 ≤ c) :
    decodeValues (finishValues { count := c, initialized := true, last := v, out := o } l)
      = decodeValues o ++ List.replicate c v ++ l := by
  induction l generalizing c v o with
  | nil =>
    simp [finishValues, decodeValues_append,
      decodeValues_print_values { count := c, initialized := true, last := v, out := o } hc]
  | cons x xs ih =>
    unfold finishValues at ih ⊢
    rw [List.foldl_cons, valuesStep_initialized]
    by_cases hx : x = v
    · rw [if_pos hx, ih (c + 1) v o (by omega)]
      simp [hx, List.replicate_succ']
    · rw [if_neg hx, ih 1 x _ (by omega)]
      simp [decodeValues_append,
        decodeValues_print_values { count := c, initialized := true, last := v, out := o } hc]

theorem splitBy_loop_append (r : Int → Int → Bool) (l : List Int) (a : Int) (g : List Int)
    (gs : List (List Int)) :
    List.splitBy.loop r l a g gs = gs.reverse ++ List.splitBy.loop r l a g [] := by
  induction l generalizing a g gs with
  | nil => simp [List.splitBy.loop]
  | cons b l ih =>
    simp only [List.splitBy.loop]
    cases r a b
    · simp only
      rw [ih, ih b [] [_]]
      simp
    · simp only
      rw [ih]

theorem runDirective_replicate (c : Nat) (v : Int) (o : List Line) (hc : 1 ≤ c) :
    runDirective (List.replicate c v)
      = print_values { count := c, initialized := true, last := v, out := o } := by
  cases c with
  | zero => omega
  | succ n => simp [runDirective, print_values, List.replicate_succ]

theorem cons_replicate_pred (c : Nat) (v : Int) (hc : 1 ≤ c) :
    v :: List.replicate (c - 1) v = List.replicate c v := by
  cases c with
  | zero => omega
  | succ n => simp [List.replicate_succ]

/-- Loop invariant of the run-length loop, read against `List.splitBy`. -/
theorem finishValues_eq_splitBy (l : List Int) (c : Nat) (v : Int) (o : List Line)
    (hc : 1 ≤ c) :
    finishValues { count := c, initialized := true, last := v, out := o } l
      = o ++ (List.splitBy.loop (fun a b => a == b) l v (List.replicate (c - 1) v) []).map
          runDirective := by
  induction l generalizing c v o with
  | nil =>
    simp only [finishValues, List.foldl_nil, List.splitBy.loop, List.reverse_nil,
      List.nil_append, List.map_cons, List.map_nil, List.reverse_cons, List.reverse_replicate]
    rw [← List.replicate_succ', Nat.sub_add_cancel hc, runDirective_replicate c v o hc]
  | cons x xs ih =>
    unfold finishValues at ih ⊢
    rw [List.foldl_cons, valuesStep_initialized]
    by_cases hx : x = v
    · rw [if_pos hx, ih (c + 1) v o (by omega)]
      subst hx
      simp [List.splitBy.loop, cons_replicate_pred c x hc]
    · rw [if_neg hx, ih 1 x _ (by omega)]
      have hb : (v == x) = false := by
        simp only [beq_eq_false_iff_ne, ne_eq]
        exact fun h => hx h.symm
      simp only [List.splitBy.loop, hb, Nat.sub_self, List.replicate_zero]
      rw [splitBy_loop_append _ xs x [] [_]]
      simp only [List.reverse_cons, List.reverse_nil, List.nil_append, List.reverse_replicate,
        List.map_append, List.map_cons, List.map_nil, List.append_assoc, List.singleton_append]
      rw [← List.replicate_succ', Nat.sub_add_cancel hc, runDirective_replicate c v o hc]

theorem dataValue_print_values (s : ValuesState) : (print_values s).dataValue = some s.last := by
  unfold print_values
  split <;> rfl

/-- Loop invariant: no two adjacent directives of the same value. -/
theorem distinctAdjacent_finishValues (l : List Int) (c : Nat) (v : Int) (o : List Line)
    (h : DistinctAdjacent (o ++ [Line.long v])) :
    DistinctAdjacent (finishValues { count := c, initialized := true, last := v, out := o } l) := by
  induction l generalizing c v o with
  | nil =>
    simp only [finishValues, List.foldl_nil]
    unfold DistinctAdjacent at h ⊢
    rw [List.chain'_append] at h ⊢
    refine ⟨h.1, List.chain'_singleton _, ?_⟩
    intro x hx y hy
    have := h.2.2 x hx (Line.long v) (by simp)
    simp only [List.head?_cons, Option.mem_def, Option.some.injEq] at hy
    subst hy
    rw [dataValue_print_values]
    exact this
  | cons x xs ih =>
    unfold finishValues at ih ⊢
    rw [List.foldl_cons, valuesStep_initialized]
    by_cases hx : x = v
    · rw [if_pos hx]
      exact ih (c + 1) v o h
    · rw [if_neg hx]
      apply ih
      unfold DistinctAdjacent at h ⊢
      rw [List.chain'_append] at h ⊢
      refine ⟨?_, List.chain'_singleton _, ?_⟩
      · rw [List.chain'_append]
        refine ⟨h.1, List.chain'_singleton _, ?_⟩
        intro a ha b hb
        have := h.2.2 a ha (Line.long v) (by simp)
        simp only [List.head?_cons, Option.mem_def, Option.some.injEq] at hb
        subst hb
        rw [dataValue_print_values]
        exact this
      · intro a ha b hb
        simp only [List.head?_cons, Option.mem_def, Option.some.injEq] at hb
        subst hb
        simp [List.getLast?_append] at ha
        subst ha
        rw [dataValue_print_values]
        intro h
        exact hx (Option.some.inj h).symm

/-- C1 (as stated, refuted): for the empty initializer the emitter writes `.long 0`, so
decoding the directives of the empty sequence gives one word, not the empty sequence. -/
theorem emitValues_roundtrip_fails_on_empty :
    emitValues [] = [Line.long 0] ∧ decodeValues (emitValues []) ≠ [] := by
  decide

/-- C1 (amended): decoding the data directives written for a flattened initializer gives
back the initializer itself when it is not empty, and the single word `0` when it is. -/
theorem decodeValues_emitValues (vals : List Int) :
    decodeValues (emitValues vals) = if vals = [] then [0] else vals := by
  cases vals with
  | nil => decide
  | cons x xs =>
    rw [emitValues_cons, decodeValues_finishValues xs 1 x [] (by omega)]
    simp [decodeValues]

/-- C2: for a non-empty initializer the emitter writes, in order, one directive per maximal
run of equal adjacent values (`.fill N, 4, V` for a run of `N > 1` copies of `V`, `.long V`
for a run of length one); so there are as many directives as maximal runs, and adjacent
directives carry different values. -/
theorem emitValues_eq_maximalRuns (vals : List Int) (h : vals ≠ []) :
    emitValues vals = (maximalRuns vals).map runDirective
      ∧ (emitValues vals).length = (maximalRuns vals).length
      ∧ DistinctAdjacent (emitValues vals) := by
  cases vals with
  | nil => exact absurd rfl h
  | cons x xs =>
    have h1 : emitValues (x :: xs) = (maximalRuns (x :: xs)).map runDirective := by
      rw [emitValues_cons, finishValues_eq_splitBy xs 1 x [] (by omega)]
      simp [maximalRuns, List.splitBy]
    refine ⟨h1, ?_, ?_⟩
    · rw [h1, List.length_map]
    · rw [emitValues_cons]
      apply distinctAdjacent_finishValues
      exact List.chain'_singleton _

/-- C2, witness: the values `[0,0,0,7]` give `.fill 3, 4, 0` followed by `.long 7`. -/
theorem emitValues_eq_maximalRuns_witness :
    ([0, 0, 0, 7] : List Int) ≠ []
      ∧ maximalRuns [0, 0, 0, 7] = [[0, 0, 0], [7]]
      ∧ emitValues [0, 0, 0, 7] = [Line.fill 3 0, Line.long 7]
      ∧ renderLines (fun _ => "") (fun _ => "") (emitValues [0, 0, 0, 7])
          = "\t.fill\t3, 4, 0\n\t.long\t7\n"
      ∧ (emitValues [0, 0, 0, 7] = (maximalRuns [0, 0, 0, 7]).map runDirective
          ∧ (emitValues [0, 0, 0, 7]).length = (maximalRuns [0, 0, 0, 7]).length
          ∧ DistinctAdjacent (emitValues [0, 0, 0, 7])) :=
  ⟨by decide, by decide, by decide, by decide,
    emitValues_eq_maximalRuns [0, 0, 0, 7] (by decide)⟩

/-! ## Instruction dispatch -/

theorem toU32_lt (v : Int) : toU32 v < 4294967296 := by
  unfold toU32
  have h1 : 0 ≤ v % 4294967296 := Int.emod_nonneg _ (by decide)
  have h2 : v % 4294967296 < 4294967296 := Int.emod_lt_of_pos _ (by decide)
  omega

theorem wrapI32_of_lt (n : Nat) (h : n < 2147483648) : wrapI32 (n : Int) = n := by
  unfold wrapI32
  omega

theorem wrapI32_toU32 (v : Int) (h1 : -2147483648 ≤ v) (h2 : v < 2147483648) :
    wrapI32 (toU32 v : Int) = v := by
  unfold wrapI32 toU32
  omega

theorem land_ffff (n : Nat) : n &&& 0xffff = n % 65536 :=
  Nat.and_pow_two_sub_one_eq_mod n 16

theorem shiftRight_16 (n : Nat) : n >>> 16 = n / 65536 := by
  rw [Nat.shiftRight_eq_div_pow]

/-- C3: a `Move` of an immediate `v` that `can_encode_imm` rejects is written as
`movw dst, lo` with `lo = v mod 2^16` and, exactly when `hi = v div 2^16` is not zero, a
following `movt dst, hi` (`v` read as unsigned 32-bit); `lo, hi < 2^16` and
`lo + 2^16 * hi = v`; executing the lines abstractly leaves `dst` holding exactly the 32-bit
word `v` (and no other register changed), which read as `i32` is `v` itself. -/
theorem move_split_reconstructs (can_encode_imm : Int → Bool) (sp_offset : Int)
    (bb_index : IndexMapper) (cond : ArmCond) (dst : MachineOperand) (v : Int)
    (h : can_encode_imm v = false) :
    emitInst can_encode_imm sp_offset bb_index
        (.MIMove cond dst { state := OperandState.Immediate, value := v })
      = .ok (splitMoveLines dst v, bb_index,
          .MIMove cond dst { state := OperandState.Immediate, value := v })
    ∧ toU32 v % 65536 < 65536 ∧ toU32 v / 65536 < 65536
    ∧ toU32 v % 65536 + 65536 * (toU32 v / 65536) = toU32 v
    ∧ (∀ regs : MachineOperand → Nat,
        execLines regs (splitMoveLines dst v) = Function.update regs dst (toU32 v))
    ∧ (-2147483648 ≤ v → v < 2147483648 → wrapI32 (toU32 v : Int) = v) := by
  have hlt := toU32_lt v
  have hlo : toU32 v % 65536 < 65536 := Nat.mod_lt _ (by decide)
  have hhi : toU32 v / 65536 < 65536 := by omega
  refine ⟨?_, hlo, hhi, by omega, ?_, wrapI32_toU32 v⟩
  · simp only [emitInst, splitMoveLines, h, and_self, if_true, land_ffff, shiftRight_16]
    rw [wrapI32_of_lt _ (by omega), wrapI32_of_lt _ (by omega)]
    have : (toU32 v > 65535) ↔ (toU32 v / 65536 ≠ 0) := by omega
    simp only [this]
  · intro regs
    have e1 : toU32 ((toU32 v % 65536 : Nat) : Int) = toU32 v % 65536 := by
      unfold toU32; omega
    have e2 : toU32 ((toU32 v / 65536 : Nat) : Int) = toU32 v / 65536 := by
      unfold toU32; omega
    unfold splitMoveLines
    by_cases hz : toU32 v / 65536 = 0
    · simp only [hz, ne_eq, not_true_eq_false, if_false, execLines, List.foldl_cons,
        List.foldl_nil, execLine]
      rw [e1]
      have e3 : toU32 v % 65536 % 65536 = toU32 v := by omega
      rw [e3]
    · simp only [hz, ne_eq, not_false_eq_true, if_true, execLines, List.foldl_cons,
        List.foldl_nil, execLine, Function.update_same, Function.update_idem]
      rw [e1, e2]
      have e3 : toU32 v % 65536 % 65536 % 65536 + 65536 * (toU32 v / 65536 % 65536)
          = toU32 v := by omega
      rw [e3]

/-- C3, witness: `0x12345` is not a modified immediate; it is written as `movw r0, #9029`
then `movt r0, #1`, and `9029 + 65536 * 1 = 74565`. -/
theorem move_split_reconstructs_witness :
    armModifiedImmediate 74565 = false
      ∧ emitInst armModifiedImmediate 0 { mapping := [] }
          (.MIMove { code := 0 } { state := OperandState.PreColored, value := 0 }
            { state := OperandState.Immediate, value := 74565 })
        = .ok ([Line.movw { state := OperandState.PreColored, value := 0 }
                  { state := OperandState.Immediate, value := 9029 },
                Line.movt { state := OperandState.PreColored, value := 0 }
                  { state := OperandState.Immediate, value := 1 }],
              { mapping := [] },
              .MIMove { code := 0 } { state := OperandState.PreColored, value := 0 }
                { state := OperandState.Immediate, value := 74565 }) :=
  ⟨by decide,
    (move_split_reconstructs armModifiedImmediate 0 { mapping := [] } { code := 0 }
      { state := OperandState.PreColored, value := 0 } 74565 (by decide)).1⟩

/-- C4 (as stated, refuted): for `Mul` with `dst = lhs = r0` and `rhs = r1` the emitter swaps
the sources and writes `mul r0, r1, r0`: the destination is the last operand printed. -/
theorem mul_dst_equals_last_operand :
    ({ state := OperandState.PreColored, value := 0 } : MachineOperand)
        ≠ { state := OperandState.PreColored, value := 1 }
      ∧ emitInst armModifiedImmediate 0 { mapping := [] }
          (.MIBinary .Mul { state := OperandState.PreColored, value := 0 }
            { state := OperandState.PreColored, value := 0 }
            { state := OperandState.PreColored, value := 1 })
        = .ok ([Line.binary "mul" { state := OperandState.PreColored, value := 0 }
                  { state := OperandState.PreColored, value := 1 }
                  { state := OperandState.PreColored, value := 0 }],
                { mapping := [] },
                .MIBinary .Mul { state := OperandState.PreColored, value := 0 }
                  { state := OperandState.PreColored, value := 1 }
                  { state := OperandState.PreColored, value := 0 })
      ∧ ¬ (∀ R R2 : MachineOperand, R ≠ R2 →
            ∀ ls m inst, emitInst armModifiedImmediate 0 { mapping := [] }
                (.MIBinary .Mul R R R2) = .ok (ls, m, inst) →
              ∀ l ∈ ls, ∀ d a b, l.binaryOperands = some (d, a, b) → d ≠ b) := by
  refine ⟨by decide, rfl, ?_⟩
  intro hall
  exact hall { state := OperandState.PreColored, value := 0 }
    { state := OperandState.PreColored, value := 1 } (by decide) _ _ _ rfl
    (Line.binary "mul" { state := OperandState.PreColored, value := 0 }
      { state := OperandState.PreColored, value := 1 }
      { state := OperandState.PreColored, value := 0 })
    (List.mem_singleton.mpr rfl) _ _ _ rfl rfl

/-- C4 (amended): for `Mul` with `dst = R`, `lhs = R`, `rhs = R2` and `R ≠ R2` the line
written is `mul R, R2, R`: its destination differs from the first source operand printed
(the rule the emitter enforces), and its last operand is `R` itself. -/
theorem mul_swap_line (can_encode_imm : Int → Bool) (sp_offset : Int) (bb_index : IndexMapper)
    (R R2 : MachineOperand) (h : R ≠ R2) :
    emitInst can_encode_imm sp_offset bb_index (.MIBinary .Mul R R R2)
        = .ok ([Line.binary "mul" R R2 R], bb_index, .MIBinary .Mul R R2 R)
      ∧ (Line.binary "mul" R R2 R).binaryOperands = some (R, R2, R)
      ∧ R ≠ R2 := by
  refine ⟨?_, rfl, h⟩
  simp [emitInst, h]

/-- C4 (amended), witness: `dst = lhs = r0`, `rhs = r1`. -/
theorem mul_swap_line_witness :
    ({ state := OperandState.PreColored, value := 0 } : MachineOperand)
        ≠ { state := OperandState.PreColored, value := 1 }
      ∧ emitInst armModifiedImmediate 0 { mapping := [] }
          (.MIBinary .Mul { state := OperandState.PreColored, value := 0 }
            { state := OperandState.PreColored, value := 0 }
            { state := OperandState.PreColored, value := 1 })
        = .ok ([Line.binary "mul" { state := OperandState.PreColored, value := 0 }
                  { state := OperandState.PreColored, value := 1 }
                  { state := OperandState.PreColored, value := 0 }],
                { mapping := [] },
                .MIBinary .Mul { state := OperandState.PreColored, value := 0 }
                  { state := OperandState.PreColored, value := 1 }
                  { state := OperandState.PreColored, value := 0 }) :=
  ⟨by decide, (mul_swap_line armModifiedImmediate 0 { mapping := [] } _ _ (by decide)).1⟩

theorem emitInst_mul_same (can_encode_imm : Int → Bool) (sp_offset : Int)
    (bb_index : IndexMapper) (dst lhs rhs : MachineOperand) (h1 : dst = lhs) (h2 : dst = rhs) :
    emitInst can_encode_imm sp_offset bb_index (.MIBinary .Mul dst lhs rhs)
      = .error Fatal.codegenError := by
  simp only [emitInst]
  rw [if_pos h1, if_pos h2]

theorem emitInst_mul_swap (can_encode_imm : Int → Bool) (sp_offset : Int)
    (bb_index : IndexMapper) (dst lhs rhs : MachineOperand) (h1 : dst = lhs) (h2 : dst ≠ rhs) :
    emitInst can_encode_imm sp_offset bb_index (.MIBinary .Mul dst lhs rhs)
      = .ok ([Line.binary "mul" dst rhs lhs], bb_index, .MIBinary .Mul dst rhs lhs) := by
  simp only [emitInst]
  rw [if_pos h1, if_neg h2]

theorem emitInst_mul_keep (can_encode_imm : Int → Bool) (sp_offset : Int)
    (bb_index : IndexMapper) (dst lhs rhs : MachineOperand) (h1 : dst ≠ lhs) :
    emitInst can_encode_imm sp_offset bb_index (.MIBinary .Mul dst lhs rhs)
      = .ok ([Line.binary "mul" dst lhs rhs], bb_index, .MIBinary .Mul dst lhs rhs) := by
  simp only [emitInst]
  rw [if_neg h1]

theorem mulSwapped_mul (dst lhs rhs : MachineOperand) :
    mulSwapped (.MIBinary .Mul dst lhs rhs)
      = if dst = lhs then .MIBinary .Mul dst rhs lhs else .MIBinary .Mul dst lhs rhs := rfl

/-- C5: emitting a `Mul` fails exactly when `dst`, `lhs` and `rhs` are one and the same
operand, the failure being the codegen error and carrying no line; every other `Mul`
succeeds with one line; `Add`, `Sub`, `And` and `Or` succeed whatever their operands. -/
theorem binary_emission_fails_iff (can_encode_imm : Int → Bool) (sp_offset : Int)
    (bb_index : IndexMapper) (dst lhs rhs : MachineOperand) :
    ((∃ e, emitInst can_encode_imm sp_offset bb_index (.MIBinary .Mul dst lhs rhs) = .error e)
        ↔ (dst = lhs ∧ dst = rhs))
      ∧ ((dst = lhs ∧ dst = rhs) ↔
          emitInst can_encode_imm sp_offset bb_index (.MIBinary .Mul dst lhs rhs)
            = .error Fatal.codegenError)
      ∧ ((∃ l, emitInst can_encode_imm sp_offset bb_index (.MIBinary .Mul dst lhs rhs)
            = .ok ([l], bb_index, mulSwapped (.MIBinary .Mul dst lhs rhs)))
          ↔ ¬ (dst = lhs ∧ dst = rhs))
      ∧ emitInst can_encode_imm sp_offset bb_index (.MIBinary .Add dst lhs rhs)
          = .ok ([Line.binary "add" dst lhs rhs], bb_index, .MIBinary .Add dst lhs rhs)
      ∧ emitInst can_encode_imm sp_offset bb_index (.MIBinary .Sub dst lhs rhs)
          = .ok ([Line.binary "sub" dst lhs rhs], bb_index, .MIBinary .Sub dst lhs rhs)
      ∧ emitInst can_encode_imm sp_offset bb_index (.MIBinary .And dst lhs rhs)
          = .ok ([Line.binary "and" dst lhs rhs], bb_index, .MIBinary .And dst lhs rhs)
      ∧ emitInst can_encode_imm sp_offset bb_index (.MIBinary .Or dst lhs rhs)
          = .ok ([Line.binary "orr" dst lhs rhs], bb_index, .MIBinary .Or dst lhs rhs) := by
  refine ⟨?_, ?_, ?_, rfl, rfl, rfl, rfl⟩
  · by_cases h1 : dst = lhs
    · by_cases h2 : dst = rhs
      · rw [emitInst_mul_same _ _ _ _ _ _ h1 h2]
        exact ⟨fun _ => ⟨h1, h2⟩, fun _ => ⟨_, rfl⟩⟩
      · rw [emitInst_mul_swap _ _ _ _ _ _ h1 h2]
        exact ⟨fun ⟨_, he⟩ => (by cases he), fun h => absurd h.2 h2⟩
    · rw [emitInst_mul_keep _ _ _ _ _ _ h1]
      exact ⟨fun ⟨_, he⟩ => (by cases he), fun h => absurd h.1 h1⟩
  · by_cases h1 : dst = lhs
    · by_cases h2 : dst = rhs
      · rw [emitInst_mul_same _ _ _ _ _ _ h1 h2]
        exact ⟨fun _ => rfl, fun _ => ⟨h1, h2⟩⟩
      · rw [emitInst_mul_swap _ _ _ _ _ _ h1 h2]
        exact ⟨fun h => absurd h.2 h2, fun h => by cases h⟩
    · rw [emitInst_mul_keep _ _ _ _ _ _ h1]
      exact ⟨fun h => absurd h.1 h1, fun h => by cases h⟩
  · rw [mulSwapped_mul]
    by_cases h1 : dst = lhs
    · by_cases h2 : dst = rhs
      · rw [emitInst_mul_same _ _ _ _ _ _ h1 h2]
        exact ⟨fun ⟨_, hl⟩ => (by cases hl), fun h => absurd ⟨h1, h2⟩ h⟩
      · rw [emitInst_mul_swap _ _ _ _ _ _ h1 h2, if_pos h1]
        exact ⟨fun _ h => h2 h.2, fun _ => ⟨_, rfl⟩⟩
    · rw [emitInst_mul_keep _ _ _ _ _ _ h1, if_neg h1]
      exact ⟨fun _ h => h1 h.1, fun _ => ⟨_, rfl⟩⟩

/-! ## Emission of a whole program -/

/-- What a completed emission of one instruction leaves, and that emitting the instruction
it leaves, from the same label map, writes the same lines and leaves the same state. -/
theorem emitInst_ok (can_encode_imm : Int → Bool) (sp_offset : Int) (m : IndexMapper)
    (inst : MachineInst) (ls : List Line) (m1 : IndexMapper) (inst1 : MachineInst)
    (h : emitInst can_encode_imm sp_offset m inst = .ok (ls, m1, inst1)) :
    inst1 = mulSwapped inst
      ∧ emitInst can_encode_imm sp_offset m inst1 = .ok (ls, m1, inst1) := by
  cases inst with
  | MIBinary tag dst lhs rhs =>
    cases tag with
    | Mul =>
      by_cases h1 : dst = lhs
      · by_cases h2 : dst = rhs
        · rw [emitInst_mul_same _ _ _ _ _ _ h1 h2] at h
          cases h
        · rw [emitInst_mul_swap _ _ _ _ _ _ h1 h2] at h
          cases h
          refine ⟨by rw [mulSwapped_mul, if_pos h1], ?_⟩
          rw [emitInst_mul_keep _ _ _ _ _ _ h2]
      · rw [emitInst_mul_keep _ _ _ _ _ _ h1] at h
        cases h
        refine ⟨by rw [mulSwapped_mul, if_neg h1], ?_⟩
        rw [emitInst_mul_keep _ _ _ _ _ _ h1]
    | Other code => simp [emitInst] at h
    | _ =>
      simp only [emitInst] at h
      cases h
      exact ⟨rfl, rfl⟩
  | MIUnary tag dst rhs => simp [emitInst] at h
  | MIMove cond dst rhs =>
    by_cases hc : rhs.state = OperandState.Immediate ∧ can_encode_imm rhs.value = false
    · have e := h
      simp only [emitInst] at h
      rw [if_pos hc] at h
      cases h
      exact ⟨rfl, e⟩
    · have e := h
      simp only [emitInst] at h
      rw [if_neg hc] at h
      cases h
      exact ⟨rfl, e⟩
  | _ =>
    simp only [emitInst] at h
    cases h
    exact ⟨rfl, rfl⟩

theorem emitInsts_ok (can_encode_imm : Int → Bool) (sp_offset : Int) (cti : Option Nat)
    (l : List MachineInst) (i : Nat) (m : IndexMapper) (ls : List Line) (m1 : IndexMapper)
    (l1 : List MachineInst)
    (h : emitInsts can_encode_imm sp_offset cti i l m = .ok (ls, m1, l1)) :
    l1 = l.map mulSwapped
      ∧ emitInsts can_encode_imm sp_offset cti i l1 m = .ok (ls, m1, l1) := by
  induction l generalizing i m ls m1 l1 with
  | nil =>
    simp only [emitInsts] at h
    cases h
    exact ⟨rfl, rfl⟩
  | cons inst rest ih =>
    simp only [emitInsts] at h
    split at h
    · cases h
    · rename_i lsa ma insta ha
      split at h
      · cases h
      · rename_i lsb mb restb hb
        cases h
        obtain ⟨e1, e2⟩ := emitInst_ok _ _ _ _ _ _ _ ha
        obtain ⟨e3, e4⟩ := ih _ _ _ _ _ hb
        refine ⟨by rw [e1, e3]; rfl, ?_⟩
        simp only [emitInsts, e2, e4]


theorem emitBB_ok (can_encode_imm : Int → Bool) (sp_offset : Int) (self : BBRef)
    (bb : MachineBB) (m : IndexMapper) (ls : List Line) (m1 : IndexMapper) (bb1 : MachineBB)
    (h : emitBB can_encode_imm sp_offset self bb m = .ok (ls, m1, bb1)) :
    bb1 = { bb with insts := bb.insts.map mulSwapped }
      ∧ emitBB can_encode_imm sp_offset self bb1 m = .ok (ls, m1, bb1) := by
  simp only [emitBB] at h
  split at h
  · cases h
  · rename_i lsa ma instsa ha
    cases h
    obtain ⟨e1, e2⟩ := emitInsts_ok _ _ _ _ _ _ _ _ _ ha
    refine ⟨by rw [e1], ?_⟩
    simp only [emitBB, e2]

theorem emitBBs_ok (can_encode_imm : Int → Bool) (sp_offset : Int) (fi : Nat)
    (l : List MachineBB) (bi : Nat) (m : IndexMapper) (ls : List Line) (m1 : IndexMapper)
    (l1 : List MachineBB)
    (h : emitBBs can_encode_imm sp_offset fi bi l m = .ok (ls, m1, l1)) :
    l1 = l.map (fun bb => { bb with insts := bb.insts.map mulSwapped })
      ∧ emitBBs can_encode_imm sp_offset fi bi l1 m = .ok (ls, m1, l1) := by
  induction l generalizing bi m ls m1 l1 with
  | nil =>
    simp only [emitBBs] at h
    cases h
    exact ⟨rfl, rfl⟩
  | cons bb rest ih =>
    simp only [emitBBs] at h
    split at h
    · cases h
    · rename_i lsa ma bba ha
      split at h
      · cases h
      · rename_i lsb mb restb hb
        cases h
        obtain ⟨e1, e2⟩ := emitBB_ok _ _ _ _ _ _ _ _ ha
        obtain ⟨e3, e4⟩ := ih _ _ _ _ _ hb
        refine ⟨by rw [e1, e3]; rfl, ?_⟩
        simp only [emitBBs, e2, e4]

theorem emitFunc_ok (can_encode_imm : Int → Bool) (fi : Nat) (f : MachineFunc)
    (m : IndexMapper) (ls : List Line) (m1 : IndexMapper) (f1 : MachineFunc)
    (h : emitFunc can_encode_imm fi f m = .ok (ls, m1, f1)) :
    f1 = { f with bb := f.bb.map (fun bb => { bb with insts := bb.insts.map mulSwapped }) }
      ∧ emitFunc can_encode_imm fi f1 m = .ok (ls, m1, f1) := by
  simp only [emitFunc] at h
  split at h
  · cases h
  · rename_i lsa ma bba ha
    cases h
    obtain ⟨e1, e2⟩ := emitBBs_ok _ _ _ _ _ _ _ _ _ ha
    refine ⟨by rw [e1], ?_⟩
    simp only [emitFunc, e2]

theorem emitFuncs_ok (can_encode_imm : Int → Bool) (l : List MachineFunc) (fi : Nat)
    (m : IndexMapper) (ls : List Line) (m1 : IndexMapper) (l1 : List MachineFunc)
    (h : emitFuncs can_encode_imm fi l m = .ok (ls, m1, l1)) :
    l1 = l.map (fun f =>
        { f with bb := f.bb.map (fun bb => { bb with insts := bb.insts.map mulSwapped }) })
      ∧ emitFuncs can_encode_imm fi l1 m = .ok (ls, m1, l1) := by
  induction l generalizing fi m ls m1 l1 with
  | nil =>
    simp only [emitFuncs] at h
    cases h
    exact ⟨rfl, rfl⟩
  | cons f rest ih =>
    simp only [emitFuncs] at h
    split at h
    · cases h
    · rename_i lsa ma fa ha
      split at h
      · cases h
      · rename_i lsb mb restb hb
        cases h
        obtain ⟨e1, e2⟩ := emitFunc_ok _ _ _ _ _ _ _ ha
        obtain ⟨e3, e4⟩ := ih _ _ _ _ _ hb
        refine ⟨by rw [e1, e3]; rfl, ?_⟩
        simp only [emitFuncs, e2, e4]

theorem emit_ok (can_encode_imm : Int → Bool) (p : MachineProgram) (ls : List Line)
    (p1 : MachineProgram) (h : emit can_encode_imm p = .ok (ls, p1)) :
    p1 = p.mapInsts mulSwapped ∧ emit can_encode_imm p1 = .ok (ls, p1) := by
  simp only [emit] at h
  split at h
  · cases h
  · rename_i lsa ma funca ha
    cases h
    obtain ⟨e1, e2⟩ := emitFuncs_ok _ _ _ _ _ _ _ ha
    refine ⟨by rw [e1]; rfl, ?_⟩
    simp only [emit, e2]

theorem emitText_ok (showOp : MachineOperand → String) (showCond : ArmCond → String)
    (can_encode_imm : Int → Bool) (p : MachineProgram) (text : String) (p1 : MachineProgram)
    (h : emitText showOp showCond can_encode_imm p = .ok (text, p1)) :
    ∃ ls, emit can_encode_imm p = .ok (ls, p1) ∧ text = renderLines showOp showCond ls := by
  simp only [emitText] at h
  split at h
  · cases h
  · rename_i lsa pa ha
    cases h
    exact ⟨lsa, ha, rfl⟩

theorem mapInsts_eq_self (g : MachineInst → MachineInst) (p : MachineProgram)
    (h : ∀ f ∈ p.func, ∀ bb ∈ f.bb, ∀ inst ∈ bb.insts, g inst = inst) :
    p.mapInsts g = p := by
  unfold MachineProgram.mapInsts
  have hf : p.func.map (fun f =>
      { f with bb := f.bb.map (fun bb => { bb with insts := bb.insts.map g }) }) = p.func := by
    conv_rhs => rw [← List.map_id p.func]
    apply List.map_congr_left
    intro f hfmem
    have hb : f.bb.map (fun bb => { bb with insts := bb.insts.map g }) = f.bb := by
      conv_rhs => rw [← List.map_id f.bb]
      apply List.map_congr_left
      intro bb hbmem
      have hi : bb.insts.map g = bb.insts := by
        conv_rhs => rw [← List.map_id bb.insts]
        exact List.map_congr_left (fun inst hin => h f hfmem bb hbmem inst hin)
      simp only [hi, id]
    simp only [hb, id]
  rw [hf]

theorem emit_mulProgram :
    emit armModifiedImmediate mulProgram
        = .ok ([Line.sectionText, Line.funcGlobal "f", Line.funcType "f", Line.label "f",
                Line.stmfd, Line.movFp, Line.subSp 0, Line.bbLabel 0,
                Line.bbInfo [] [] [] [] [] [], Line.binary "mul" r0 r1 r0,
                Line.controlTransfer, Line.addSp 0, Line.ldmfd, Line.sectionData, Line.align],
              mulProgramAfter) := rfl

/-- C8 (as stated, refuted): emitting `mulProgram` completes and leaves its `Mul` with `lhs`
and `rhs` exchanged, so the program after emission is not the program before it. -/
theorem emit_changes_mul_operands :
    emit armModifiedImmediate mulProgram
        = .ok ([Line.sectionText, Line.funcGlobal "f", Line.funcType "f", Line.label "f",
                Line.stmfd, Line.movFp, Line.subSp 0, Line.bbLabel 0,
                Line.bbInfo [] [] [] [] [] [], Line.binary "mul" r0 r1 r0,
                Line.controlTransfer, Line.addSp 0, Line.ldmfd, Line.sectionData, Line.align],
              mulProgramAfter)
      ∧ mulProgramAfter ≠ mulProgram :=
  ⟨rfl, by decide⟩

/-- C8 (amended): when emission completes, the program it leaves is the program before it
with `lhs` and `rhs` exchanged in every `Mul` whose `dst` equals its `lhs`, and nothing else
changed; so a program without such a `Mul` is left exactly as it was. -/
theorem emit_leaves_mulSwapped (can_encode_imm : Int → Bool) (p : MachineProgram)
    (ls : List Line) (p1 : MachineProgram) (h : emit can_encode_imm p = .ok (ls, p1)) :
    p1 = p.mapInsts mulSwapped
      ∧ ((∀ f ∈ p.func, ∀ bb ∈ f.bb, ∀ inst ∈ bb.insts, ∀ dst lhs rhs,
            inst = MachineInst.MIBinary Tag.Mul dst lhs rhs → dst ≠ lhs) → p1 = p) := by
  have h1 := (emit_ok can_encode_imm p ls p1 h).1
  refine ⟨h1, fun hno => ?_⟩
  rw [h1]
  apply mapInsts_eq_self
  intro f hf bb hb inst hi
  cases inst with
  | MIBinary tag dst lhs rhs =>
    cases tag with
    | Mul => rw [mulSwapped_mul, if_neg (hno f hf bb hb _ hi dst lhs rhs rfl)]
    | _ => rfl
  | _ => rfl

/-- C8 (amended), witness: `mulProgram` is left as `mulProgramAfter`. -/
theorem emit_leaves_mulSwapped_witness :
    mulProgramAfter = mulProgram.mapInsts mulSwapped :=
  (emit_leaves_mulSwapped armModifiedImmediate mulProgram _ mulProgramAfter
    emit_mulProgram).1

/-- C9: when emitting a program completes, emitting the program it leaves completes too,
writes character for character the same text, and leaves the program as it is. -/
theorem emitText_twice (showOp : MachineOperand → String) (showCond : ArmCond → String)
    (can_encode_imm : Int → Bool) (p : MachineProgram) (text : String) (p1 : MachineProgram)
    (h : emitText showOp showCond can_encode_imm p = .ok (text, p1)) :
    emitText showOp showCond can_encode_imm p1 = .ok (text, p1) := by
  obtain ⟨ls, h1, h2⟩ := emitText_ok _ _ _ _ _ _ h
  have h3 := (emit_ok can_encode_imm p ls p1 h1).2
  simp only [emitText, h3, h2]

set_option maxRecDepth 1000000 in
/-- C9, witness: `mulProgram`, whose `Mul` has `dst = lhs ≠ rhs`, is written as
`mulProgramText` the first time and the second time. -/
theorem emitText_twice_witness :
    emitText showOperand showCondition armModifiedImmediate mulProgram
        = .ok (mulProgramText, mulProgramAfter)
      ∧ emitText showOperand showCondition armModifiedImmediate mulProgramAfter
        = .ok (mulProgramText, mulProgramAfter) :=
  ⟨by rfl, emitText_twice showOperand showCondition armModifiedImmediate mulProgram
    mulProgramText mulProgramAfter (by rfl)⟩

/-! ## Stack-frame finaliser -/

theorem instAt_setInst (f : MachineFunc) (ref ref1 : InstRef) (inst : MachineInst) :
    (f.setInst ref inst).instAt ref1
      = if ref = ref1 then (f.instAt ref1).map (fun _ => inst) else f.instAt ref1 := by
  obtain ⟨b, i⟩ := ref
  obtain ⟨b1, i1⟩ := ref1
  simp only [MachineFunc.instAt, MachineFunc.setInst, List.getElem?_modify, Prod.mk.injEq]
  cases hb : f.bb[b1]? with
  | none => simp
  | some bb =>
    by_cases h1 : b = b1
    · subst h1
      simp only [Option.map_eq_map, Option.map_some', if_true, true_and, List.getElem?_set]
      by_cases h2 : i = i1
      · subst h2
        simp only [if_true]
        by_cases h3 : i < bb.insts.length
        · simp [h3, List.getElem?_eq_getElem h3]
        · simp [h3, List.getElem?_eq_none (Nat.le_of_not_lt h3)]
      · simp [h2]
    · simp [h1]

theorem setInst_frame (f : MachineFunc) (ref : InstRef) (inst : MachineInst) :
    f.setInst ref inst = { f with bb := (f.setInst ref inst).bb } := rfl

theorem isMoveImm_addToMoveImm (a : Int) (inst : MachineInst) :
    isMoveImm (addToMoveImm a inst) = isMoveImm inst := by
  cases inst <;> rfl

theorem isMoveImm_iterate (a : Int) (n : Nat) (inst : MachineInst) :
    isMoveImm ((addToMoveImm a)^[n] inst) = isMoveImm inst := by
  induction n generalizing inst with
  | zero => rfl
  | succ k ih => rw [Function.iterate_succ_apply, ih, isMoveImm_addToMoveImm]

/-- What one fixup does: it succeeds exactly on a well-shaped entry, and then adds the amount
to the instruction the entry designates. -/
theorem fixupInst_eq (f : MachineFunc) (s : Int) (e : Option InstRef) :
    (fixupWellShaped f e = true ∧
        ∃ ref inst, e = some ref ∧ f.instAt ref = some inst ∧
          fixupInst f s e = .ok (f.setInst ref (addToMoveImm (fixupAmount f.stack_size s) inst)))
      ∨ (fixupWellShaped f e = false ∧ ∃ err, fixupInst f s e = .error err) := by
  cases e with
  | none => exact Or.inr ⟨rfl, _, rfl⟩
  | some ref =>
    cases hi : f.instAt ref with
    | none =>
      right
      refine ⟨?_, Fatal.unreachable, ?_⟩
      · simp only [fixupWellShaped, hi]
      · simp only [fixupInst, hi]
    | some inst =>
      cases inst with
      | MIMove cond dst rhs =>
        by_cases hr : rhs.is_imm = true
        · left
          refine ⟨by simp [fixupWellShaped, hi, isMoveImm, hr], ref, _, rfl, hi, ?_⟩
          simp only [fixupInst, hi, hr, if_true]
          rfl
        · right
          refine ⟨by simpa [fixupWellShaped, hi, isMoveImm] using hr, Fatal.assertFailed, ?_⟩
          simp only [fixupInst, hi]
          rw [if_neg hr]
      | _ =>
        right
        refine ⟨?_, Fatal.unreachable, ?_⟩
        · simp only [fixupWellShaped, hi, isMoveImm]
        · simp only [fixupInst, hi]

theorem fixupWellShaped_setInst (f : MachineFunc) (ref : InstRef) (inst : MachineInst)
    (a : Int) (hi : f.instAt ref = some inst) (e : Option InstRef) :
    fixupWellShaped (f.setInst ref (addToMoveImm a inst)) e = fixupWellShaped f e := by
  cases e with
  | none => rfl
  | some ref1 =>
    simp only [fixupWellShaped, instAt_setInst]
    by_cases h : ref = ref1
    · subst h
      simp only [if_true, hi, Option.map_some', isMoveImm_addToMoveImm]
    · simp only [if_neg h]

/-- The loop over the fixup list on well-shaped entries: it completes, changes nothing but
instructions, and adds the amount to each instruction once per occurrence in the list. -/
theorem fixupAll_of_wellShaped (s : Int) (rs : List (Option InstRef)) (g : MachineFunc)
    (h : ∀ e ∈ rs, fixupWellShaped g e = true) :
    ∃ g1, fixupAll s rs g = .ok g1 ∧ g1 = { g with bb := g1.bb }
      ∧ ∀ ref, g1.instAt ref
          = (g.instAt ref).map ((addToMoveImm (fixupAmount g.stack_size s))^[rs.count (some ref)]) := by
  induction rs generalizing g with
  | nil =>
    refine ⟨g, rfl, rfl, fun ref => ?_⟩
    simp
  | cons e rest ih =>
    rcases fixupInst_eq g s e with ⟨_, ref0, inst0, he, hi, hok⟩ | ⟨hbad, _⟩
    · have hrest : ∀ e1 ∈ rest, fixupWellShaped
          (g.setInst ref0 (addToMoveImm (fixupAmount g.stack_size s) inst0)) e1 = true := by
        intro e1 he1
        rw [fixupWellShaped_setInst _ _ _ _ hi]
        exact h e1 (List.mem_cons_of_mem _ he1)
      obtain ⟨g1, hg1, hframe, hinst⟩ := ih _ hrest
      refine ⟨g1, ?_, ?_, fun ref => ?_⟩
      · simp only [fixupAll, hok, hg1]
      · rw [hframe]
        rfl
      · rw [hinst ref, instAt_setInst, he]
        have hss : (g.setInst ref0 (addToMoveImm (fixupAmount g.stack_size s) inst0)).stack_size
            = g.stack_size := rfl
        rw [hss]
        by_cases hr : ref0 = ref
        · subst hr
          simp only [if_true, hi, Option.map_some', List.count_cons_self,
            Function.iterate_succ_apply]
        · have hne : (some ref0 == some ref) = false := by
            simp only [beq_eq_false_iff_ne, ne_eq, Option.some.injEq]
            exact hr
          simp only [if_neg hr, List.count_cons, hne, Bool.false_eq_true, if_false,
            Nat.add_zero]
    · have := h e (List.mem_cons_self _ _)
      rw [hbad] at this
      cases this

/-- The loop over the fixup list completes only when every entry is well shaped. -/
theorem wellShaped_of_fixupAll (s : Int) (rs : List (Option InstRef)) (g g1 : MachineFunc)
    (h : fixupAll s rs g = .ok g1) : ∀ e ∈ rs, fixupWellShaped g e = true := by
  induction rs generalizing g with
  | nil => intro e he; cases he
  | cons e0 rest ih =>
    rcases fixupInst_eq g s e0 with ⟨hgood, ref0, inst0, _, hi, hok⟩ | ⟨_, err, herr⟩
    · simp only [fixupAll, hok] at h
      intro e he
      rcases List.mem_cons.mp he with rfl | hmem
      · exact hgood
      · have := ih _ h e hmem
        rwa [fixupWellShaped_setInst _ _ _ _ hi] at this
    · simp only [fixupAll, herr] at h
      cases h

theorem mem_scanDefs (defs : List MachineOperand) (used : Finset Nat) (r : Nat) :
    r ∈ scanDefs used defs ↔
      r ∈ used ∨ ∃ reg ∈ defs, ArmReg.r4 ≤ reg.value ∧ reg.value ≤ ArmReg.r11
        ∧ reg.value.toNat = r := by
  induction defs generalizing used with
  | nil => simp [scanDefs]
  | cons d rest ih =>
    have hstep : scanDefs used (d :: rest)
        = scanDefs (if ArmReg.r4 ≤ d.value ∧ d.value ≤ ArmReg.r11
            then insert d.value.toNat used else used) rest := rfl
    rw [hstep, ih]
    by_cases hd : ArmReg.r4 ≤ d.value ∧ d.value ≤ ArmReg.r11
    · rw [if_pos hd, Finset.mem_insert]
      constructor
      · rintro ((h | h) | ⟨reg, hm, hr⟩)
        · exact Or.inr ⟨d, List.mem_cons_self _ _, hd.1, hd.2, h.symm⟩
        · exact Or.inl h
        · exact Or.inr ⟨reg, List.mem_cons_of_mem _ hm, hr⟩
      · rintro (h | ⟨reg, hm, hr⟩)
        · exact Or.inl (Or.inr h)
        · rcases List.mem_cons.mp hm with rfl | hm1
          · exact Or.inl (Or.inl hr.2.2.symm)
          · exact Or.inr ⟨reg, hm1, hr⟩
    · rw [if_neg hd]
      constructor
      · rintro (h | ⟨reg, hm, hr⟩)
        · exact Or.inl h
        · exact Or.inr ⟨reg, List.mem_cons_of_mem _ hm, hr⟩
      · rintro (h | ⟨reg, hm, hr⟩)
        · exact Or.inl h
        · rcases List.mem_cons.mp hm with rfl | hm1
          · exact absurd ⟨hr.1, hr.2.1⟩ hd
          · exact Or.inr ⟨reg, hm1, hr⟩

theorem mem_scanInsts (get_def : MachineInst → List MachineOperand) (insts : List MachineInst)
    (used : Finset Nat) (r : Nat) :
    r ∈ scanInsts get_def used insts ↔
      r ∈ used ∨ ∃ inst ∈ insts, ∃ reg ∈ get_def inst,
        ArmReg.r4 ≤ reg.value ∧ reg.value ≤ ArmReg.r11 ∧ reg.value.toNat = r := by
  induction insts generalizing used with
  | nil => simp [scanInsts]
  | cons i rest ih =>
    have hstep : scanInsts get_def used (i :: rest)
        = scanInsts get_def (scanDefs used (get_def i)) rest := rfl
    rw [hstep, ih, mem_scanDefs]
    constructor
    · rintro ((h | h) | ⟨inst, hm, hr⟩)
      · exact Or.inl h
      · exact Or.inr ⟨i, List.mem_cons_self _ _, h⟩
      · exact Or.inr ⟨inst, List.mem_cons_of_mem _ hm, hr⟩
    · rintro (h | ⟨inst, hm, hr⟩)
      · exact Or.inl (Or.inl h)
      · rcases List.mem_cons.mp hm with rfl | hm1
        · exact Or.inl (Or.inr hr)
        · exact Or.inr ⟨inst, hm1, hr⟩

theorem mem_scanBBs (get_def : MachineInst → List MachineOperand) (bbs : List MachineBB)
    (used : Finset Nat) (r : Nat) :
    r ∈ scanBBs get_def used bbs ↔
      r ∈ used ∨ ∃ bb ∈ bbs, ∃ inst ∈ bb.insts, ∃ reg ∈ get_def inst,
        ArmReg.r4 ≤ reg.value ∧ reg.value ≤ ArmReg.r11 ∧ reg.value.toNat = r := by
  induction bbs generalizing used with
  | nil => simp [scanBBs]
  | cons b rest ih =>
    have hstep : scanBBs get_def used (b :: rest)
        = scanBBs get_def (scanInsts get_def used b.insts) rest := rfl
    rw [hstep, ih, mem_scanInsts]
    constructor
    · rintro ((h | h) | ⟨bb, hm, hr⟩)
      · exact Or.inl h
      · exact Or.inr ⟨b, List.mem_cons_self _ _, h⟩
      · exact Or.inr ⟨bb, List.mem_cons_of_mem _ hm, hr⟩
    · rintro (h | ⟨bb, hm, hr⟩)
      · exact Or.inl (Or.inl h)
      · rcases List.mem_cons.mp hm with rfl | hm1
        · exact Or.inl (Or.inr hr)
        · exact Or.inr ⟨bb, hm1, hr⟩

/-- The scan adds to the set exactly the registers of `r4..r11` the function defines. -/
theorem scanBBs_eq (get_def : MachineInst → List MachineOperand) (f : MachineFunc)
    (used : Finset Nat) :
    scanBBs get_def used f.bb = used ∪ definedCalleeSaved get_def f := by
  ext r
  rw [mem_scanBBs, Finset.mem_union]
  apply or_congr Iff.rfl
  simp only [definedCalleeSaved, Finset.mem_filter, Finset.mem_Icc, ArmReg.r4, ArmReg.r11]
  constructor
  · rintro ⟨bb, hb, inst, hi, reg, hr, h4, h11, ht⟩
    exact ⟨by omega, bb, hb, inst, hi, reg, hr, by omega⟩
  · rintro ⟨hr4, bb, hb, inst, hi, reg, hr, hv⟩
    exact ⟨bb, hb, inst, hi, reg, hr, by omega, by omega, by omega⟩

theorem wrapI32_add_fixupAmount (v S s : Int) :
    wrapI32 (v + fixupAmount S s) = wrapI32 (v + S + 4 * s) := by
  unfold fixupAmount wrapI32
  omega

/-- C6: when the fixup list holds pairwise distinct entries, each a `Move` with an immediate
right-hand side, and `used_callee_saved_regs` is empty on entry, `compute_stack_info`
completes; afterwards `used_callee_saved_regs` is exactly the set of registers `r4..r11` some
instruction of the function defines, and the immediate of every fixup is its value before the
pass plus `stack_size + 4 * (k + 1)` in `i32` arithmetic, `k` being the size of that set. -/
theorem compute_stack_info_spec (get_def : MachineInst → List MachineOperand)
    (f : MachineFunc)
    (hshape : ∀ e ∈ f.sp_arg_fixup, fixupWellShaped f e = true)
    (hdistinct : f.sp_arg_fixup.Nodup)
    (hempty : f.used_callee_saved_regs = ∅) :
    ∃ f1, compute_stack_info get_def f = .ok f1
      ∧ f1.used_callee_saved_regs = definedCalleeSaved get_def f
      ∧ ∀ ref cond dst rhs, some ref ∈ f.sp_arg_fixup →
          f.instAt ref = some (.MIMove cond dst rhs) →
          f1.instAt ref = some (.MIMove cond dst
            { rhs with value := wrapI32 (rhs.value + f.stack_size
                + 4 * (((definedCalleeSaved get_def f).card : Int) + 1)) }) := by
  have hU : scanBBs get_def f.used_callee_saved_regs f.bb = definedCalleeSaved get_def f := by
    rw [scanBBs_eq, hempty, Finset.empty_union]
  obtain ⟨g1, hok, hframe, hinst⟩ := fixupAll_of_wellShaped
    (((definedCalleeSaved get_def f).card : Int) + 1) f.sp_arg_fixup
    { f with used_callee_saved_regs := definedCalleeSaved get_def f } hshape
  refine ⟨g1, ?_, ?_, ?_⟩
  · simp only [compute_stack_info, hU]
    exact hok
  · rw [hframe]
  · intro ref cond dst rhs hmem hi
    have hc : List.count (some ref) f.sp_arg_fixup = 1 := by
      convert List.count_eq_one_of_mem hdistinct hmem
    rw [hinst ref, hc]
    have hi1 : MachineFunc.instAt
        { f with used_callee_saved_regs := definedCalleeSaved get_def f } ref
          = some (.MIMove cond dst rhs) := hi
    rw [hi1]
    simp only [Option.map_some', Function.iterate_one, addToMoveImm, wrapI32_add_fixupAmount]


theorem exists_inst_iff (f : MachineFunc) (P : MachineInst → Prop) :
    (∃ bb ∈ f.bb, ∃ inst ∈ bb.insts, P inst) ↔ ∃ ref inst, f.instAt ref = some inst ∧ P inst := by
  constructor
  · rintro ⟨bb, hb, inst, hi, hP⟩
    obtain ⟨b, hb1⟩ := List.mem_iff_getElem?.mp hb
    obtain ⟨i, hi1⟩ := List.mem_iff_getElem?.mp hi
    refine ⟨(b, i), inst, ?_, hP⟩
    simp only [MachineFunc.instAt, hb1, hi1]
  · rintro ⟨⟨b, i⟩, inst, hi, hP⟩
    simp only [MachineFunc.instAt] at hi
    cases hb : f.bb[b]? with
    | none => rw [hb] at hi; cases hi
    | some bb =>
      rw [hb] at hi
      exact ⟨bb, List.mem_iff_getElem?.mpr ⟨b, hb⟩, inst, List.mem_iff_getElem?.mpr ⟨i, hi⟩, hP⟩

/-- Functions whose instructions differ only by maps that keep the defined operands define the
same callee-saved registers. -/
theorem definedCalleeSaved_congr (get_def : MachineInst → List MachineOperand)
    (f g : MachineFunc) (k : InstRef → MachineInst → MachineInst)
    (hk : ∀ ref inst, get_def (k ref inst) = get_def inst)
    (hinst : ∀ ref, g.instAt ref = (f.instAt ref).map (k ref)) :
    definedCalleeSaved get_def g = definedCalleeSaved get_def f := by
  ext r
  simp only [definedCalleeSaved, Finset.mem_filter]
  apply and_congr Iff.rfl
  rw [exists_inst_iff g (fun inst => ∃ reg ∈ get_def inst, reg.value = (r : Int)),
    exists_inst_iff f (fun inst => ∃ reg ∈ get_def inst, reg.value = (r : Int))]
  constructor
  · rintro ⟨ref, inst, hi, hP⟩
    rw [hinst ref] at hi
    cases hf : f.instAt ref with
    | none => rw [hf] at hi; cases hi
    | some inst0 =>
      rw [hf] at hi
      simp only [Option.map_some', Option.some.injEq] at hi
      subst hi
      rw [hk] at hP
      exact ⟨ref, inst0, hf, hP⟩
  · rintro ⟨ref, inst, hi, hP⟩
    refine ⟨ref, k ref inst, ?_, ?_⟩
    · rw [hinst ref, hi]; rfl
    · rw [hk]; exact hP

theorem get_def_iterate (get_def : MachineInst → List MachineOperand)
    (hdef : ∀ cond dst rhs v,
      get_def (.MIMove cond dst { rhs with value := v }) = get_def (.MIMove cond dst rhs))
    (a : Int) (n : Nat) (inst : MachineInst) :
    get_def ((addToMoveImm a)^[n] inst) = get_def inst := by
  induction n generalizing inst with
  | zero => rfl
  | succ k ih =>
    rw [Function.iterate_succ_apply, ih]
    cases inst with
    | MIMove cond dst rhs => exact hdef cond dst rhs _
    | _ => rfl

theorem fixupWellShaped_congr (f g : MachineFunc) (a : Int) (n : InstRef → Nat)
    (hinst : ∀ ref, g.instAt ref = (f.instAt ref).map ((addToMoveImm a)^[n ref]))
    (e : Option InstRef) : fixupWellShaped g e = fixupWellShaped f e := by
  cases e with
  | none => rfl
  | some ref =>
    simp only [fixupWellShaped, hinst ref]
    cases f.instAt ref with
    | none => rfl
    | some inst => simp only [Option.map_some', isMoveImm_iterate]

theorem addToMoveImm_fixupAmount (S s : Int) :
    addToMoveImm (fixupAmount S s) = addToMoveImm (S + 4 * s) := by
  funext inst
  cases inst with
  | MIMove cond dst rhs =>
    simp only [addToMoveImm, wrapI32_add_fixupAmount, add_assoc]
  | _ => rfl

/-- C7 (amended): a function `compute_stack_info` has accepted is accepted again (the defined
operands of a `Move` not depending on the value of its right-hand side); the second run
leaves `used_callee_saved_regs` as the first run left it; it adds `stack_size + 4 * (k + 1)`,
in `i32` arithmetic, once more to the immediate of every fixup, once per occurrence of the
fixup in the list; so with an empty fixup list it leaves the whole function as it was, and a
fixup that occurs once in the list keeps its immediate exactly when
`stack_size + 4 * (k + 1)` is a multiple of `2^32`. -/
theorem compute_stack_info_rerun (get_def : MachineInst → List MachineOperand)
    (hdef : ∀ cond dst rhs v,
      get_def (.MIMove cond dst { rhs with value := v }) = get_def (.MIMove cond dst rhs))
    (f f1 : MachineFunc) (h : compute_stack_info get_def f = .ok f1) :
    ∃ f2, compute_stack_info get_def f1 = .ok f2
      ∧ f2.used_callee_saved_regs = f1.used_callee_saved_regs
      ∧ (f.sp_arg_fixup = [] → f2 = f1)
      ∧ (∀ ref, f2.instAt ref
          = (f1.instAt ref).map
              ((addToMoveImm (f1.stack_size
                  + 4 * ((f1.used_callee_saved_regs.card : Int) + 1)))^[
                f.sp_arg_fixup.count (some ref)]))
      ∧ (∀ ref cond dst rhs, f.sp_arg_fixup.count (some ref) = 1 →
          f1.instAt ref = some (.MIMove cond dst rhs) →
          (f2.instAt ref = f1.instAt ref
            ↔ (f1.stack_size + 4 * ((f1.used_callee_saved_regs.card : Int) + 1))
                % 4294967296 = 0)) := by
  simp only [compute_stack_info] at h
  have hshape := wellShaped_of_fixupAll _ _ _ _ h
  obtain ⟨g1, hok, hframe, hinst⟩ := fixupAll_of_wellShaped _ _ _ hshape
  rw [h] at hok
  cases hok
  have hused : f1.used_callee_saved_regs
      = scanBBs get_def f.used_callee_saved_regs f.bb := by rw [hframe]
  have hfix : f1.sp_arg_fixup = f.sp_arg_fixup := by rw [hframe]
  have hstack : f1.stack_size = f.stack_size := by rw [hframe]
  have hdefs : definedCalleeSaved get_def f1 = definedCalleeSaved get_def f :=
    definedCalleeSaved_congr get_def f f1 _ (fun ref inst => get_def_iterate get_def hdef _ _ inst)
      hinst
  have hscan : scanBBs get_def f1.used_callee_saved_regs f1.bb = f1.used_callee_saved_regs := by
    rw [scanBBs_eq, hdefs, hused, scanBBs_eq, Finset.union_assoc, Finset.union_self]
  have hself : ({ f1 with
      used_callee_saved_regs := (scanBBs get_def f1.used_callee_saved_regs f1.bb) } :
        MachineFunc) = f1 := by
    rw [hscan]
  have hshape1 : ∀ e ∈ f1.sp_arg_fixup, fixupWellShaped f1 e = true := by
    intro e he
    rw [fixupWellShaped_congr _ f1 _ _ hinst e]
    exact hshape e (hfix ▸ he)
  obtain ⟨g2, hok2, hframe2, hinst2⟩ := fixupAll_of_wellShaped
    ((f1.used_callee_saved_regs.card : Int) + 1) f1.sp_arg_fixup f1 hshape1
  refine ⟨g2, ?_, ?_, ?_, ?_, ?_⟩
  · simp only [compute_stack_info, hself, hscan]
    exact hok2
  · rw [hframe2]
  · intro hnil
    rw [hfix, hnil] at hok2
    simp only [fixupAll] at hok2
    cases hok2
    rfl
  · intro ref
    rw [hinst2 ref, addToMoveImm_fixupAmount, hfix]
  · intro ref cond dst rhs hc hi1
    have h2 := hinst2 ref
    rw [addToMoveImm_fixupAmount, hfix, hc, hi1] at h2
    simp only [Function.iterate_one, Option.map_some', addToMoveImm] at h2
    have h1 := hinst ref
    have hc1 : List.count (some ref)
        ({ f with used_callee_saved_regs :=
            (scanBBs get_def f.used_callee_saved_regs f.bb) } : MachineFunc).sp_arg_fixup = 1 := hc
    rw [hc1, hi1] at h1
    have hval : ∃ y, rhs.value = wrapI32 y := by
      cases hi0 : MachineFunc.instAt ({ f with used_callee_saved_regs :=
          (scanBBs get_def f.used_callee_saved_regs f.bb) } : MachineFunc) ref with
      | none => rw [hi0] at h1; cases h1
      | some inst0 =>
        rw [hi0] at h1
        simp only [Function.iterate_one, Option.map_some', Option.some.injEq] at h1
        cases inst0 with
        | MIMove c0 d0 r0 =>
          simp only [addToMoveImm, MachineInst.MIMove.injEq] at h1
          exact ⟨_, by rw [h1.2.2]⟩
        | _ => simp [addToMoveImm] at h1
    obtain ⟨y, hy⟩ := hval
    rw [h2, hi1]
    constructor
    · intro e
      simp only [Option.some.injEq, MachineInst.MIMove.injEq, true_and] at e
      have e1 : wrapI32 (rhs.value + (f1.stack_size
          + 4 * ((f1.used_callee_saved_regs.card : Int) + 1))) = rhs.value := by
        conv_rhs => rw [← e]
      rw [hy] at e1
      unfold wrapI32 at e1
      omega
    · intro e
      have e1 : wrapI32 (rhs.value + (f1.stack_size
          + 4 * ((f1.used_callee_saved_regs.card : Int) + 1))) = rhs.value := by
        rw [hy]
        unfold wrapI32
        omega
      rw [e1]

/-- C6, witness: `calleeFunc 0 ∅` defines `r4`, so `k = 1` and the fixup immediate becomes
`0 + 16 + 4 * 2 = 24`. -/
theorem compute_stack_info_spec_witness :
    (∀ e ∈ (calleeFunc 0 ∅).sp_arg_fixup, fixupWellShaped (calleeFunc 0 ∅) e = true)
      ∧ (calleeFunc 0 ∅).sp_arg_fixup.Nodup
      ∧ (calleeFunc 0 ∅).used_callee_saved_regs = ∅
      ∧ compute_stack_info exampleGetDef (calleeFunc 0 ∅) = .ok (calleeFunc 24 {4})
      ∧ definedCalleeSaved exampleGetDef (calleeFunc 0 ∅) = {4}
      ∧ ∃ f1, compute_stack_info exampleGetDef (calleeFunc 0 ∅) = .ok f1
          ∧ f1.used_callee_saved_regs = definedCalleeSaved exampleGetDef (calleeFunc 0 ∅) :=
  ⟨by decide, by decide, rfl, rfl, by decide,
    let ⟨f1, h1, h2, _⟩ :=
      compute_stack_info_spec exampleGetDef (calleeFunc 0 ∅) (by decide) (by decide) rfl
    ⟨f1, h1, h2⟩⟩

/-- C7 (as stated, refuted): on `fixupFunc 0` the first run sets the fixup immediate to 4 and
the second run, applied to the result of the first, sets it to 8. -/
theorem compute_stack_info_rerun_changes_fixup :
    compute_stack_info exampleGetDef (fixupFunc 0) = .ok (fixupFunc 4)
      ∧ compute_stack_info exampleGetDef (fixupFunc 4) = .ok (fixupFunc 8)
      ∧ (fixupFunc 4).instAt (0, 0)
          = some (.MIMove { code := 0 } r0 { state := OperandState.Immediate, value := 4 })
      ∧ (fixupFunc 8).instAt (0, 0)
          = some (.MIMove { code := 0 } r0 { state := OperandState.Immediate, value := 8 })
      ∧ fixupFunc 8 ≠ fixupFunc 4 :=
  ⟨rfl, rfl, rfl, rfl, by decide⟩

/-- C7 (amended), witness: the second run on `fixupFunc 0` is accepted, leaves the set of
callee-saved registers as the first run left it and, the amount `0 + 4 * 1` not being a
multiple of `2^32`, does not keep the immediate of the fixup; on `zeroAmountFunc 7`, where the
amount is `-4 + 4 * 1 = 0`, a run leaves the function as it was. -/
theorem compute_stack_info_rerun_witness :
    compute_stack_info exampleGetDef (fixupFunc 0) = .ok (fixupFunc 4)
      ∧ (∃ f2, compute_stack_info exampleGetDef (fixupFunc 4) = .ok f2
          ∧ f2.used_callee_saved_regs = (fixupFunc 4).used_callee_saved_regs
          ∧ f2.instAt (0, 0) ≠ (fixupFunc 4).instAt (0, 0))
      ∧ compute_stack_info exampleGetDef (zeroAmountFunc 7) = .ok (zeroAmountFunc 7) :=
  ⟨rfl,
    let ⟨f2, h1, h2, _, _, h5⟩ :=
      compute_stack_info_rerun exampleGetDef (fun _ _ _ _ => rfl) (fixupFunc 0) (fixupFunc 4) rfl
    ⟨f2, h1, h2, fun e =>
      absurd ((h5 (0, 0) { code := 0 } r0 { state := OperandState.Immediate, value := 4 }
        (by decide) rfl).mp e) (by decide)⟩,
    rfl⟩

/-- C10 (the code at the failing input): `fixupFunc 0` defines no callee-saved register, so the
finaliser counts `0 + 1 = 1` saved register and adds `0 + 4 * 1 = 4` to the fixup immediate,
while the prologue the emitter writes for the function pushes nine registers (36 bytes) and
its epilogue pops nine. -/
theorem fixup_count_differs_from_pushed_count :
    compute_stack_info exampleGetDef (fixupFunc 0) = .ok (fixupFunc 4)
      ∧ ((fixupFunc 4).used_callee_saved_regs.card + 1 = 1)
      ∧ emit armModifiedImmediate { func := [fixupFunc 4], glob_decl := [] }
          = .ok ([Line.sectionText, Line.funcGlobal "f", Line.funcType "f", Line.label "f",
                  Line.stmfd, Line.movFp, Line.subSp 0, Line.bbLabel 0,
                  Line.bbInfo [] [] [] [] [] [],
                  Line.mov { code := 0 } r0 { state := OperandState.Immediate, value := 4 },
                  Line.controlTransfer, Line.addSp 0, Line.ldmfd, Line.sectionData, Line.align],
                { func := [fixupFunc 4], glob_decl := [] })
      ∧ Line.stmfd.pushedRegs.length = 9
      ∧ Line.ldmfd.poppedRegs.length = 9
      ∧ (4 : Int) ≠ 0 + (0 + 4 * 9) :=
  ⟨rfl, by decide, rfl, rfl, rfl, by decide⟩

/-! ## Failure cases and single instructions -/

/-- Every instruction of a list whose emission completes was emitted, from some label map,
without failing. -/
theorem emitInsts_each_ok (can_encode_imm : Int → Bool) (sp_offset : Int) (cti : Option Nat)
    (l : List MachineInst) (i : Nat) (m : IndexMapper)
    (r : List Line × IndexMapper × List MachineInst)
    (h : emitInsts can_encode_imm sp_offset cti i l m = .ok r) :
    ∀ inst ∈ l, ∃ m0 r0, emitInst can_encode_imm sp_offset m0 inst = .ok r0 := by
  induction l generalizing i m r with
  | nil => intro inst hi; cases hi
  | cons x rest ih =>
    simp only [emitInsts] at h
    split at h
    · cases h
    · rename_i lsa ma insta ha
      split at h
      · cases h
      · rename_i lsb mb restb hb
        intro inst hi
        rcases List.mem_cons.mp hi with rfl | hmem
        · exact ⟨m, _, ha⟩
        · exact ih _ _ _ hb inst hmem

theorem emitBBs_each_ok (can_encode_imm : Int → Bool) (sp_offset : Int) (fi : Nat)
    (l : List MachineBB) (bi : Nat) (m : IndexMapper)
    (r : List Line × IndexMapper × List MachineBB)
    (h : emitBBs can_encode_imm sp_offset fi bi l m = .ok r) :
    ∀ bb ∈ l, ∀ inst ∈ bb.insts, ∃ m0 r0, emitInst can_encode_imm sp_offset m0 inst = .ok r0 := by
  induction l generalizing bi m r with
  | nil => intro bb hb; cases hb
  | cons x rest ih =>
    simp only [emitBBs] at h
    split at h
    · cases h
    · rename_i lsa ma bba ha
      split at h
      · cases h
      · rename_i lsb mb restb hb
        intro bb hbb
        rcases List.mem_cons.mp hbb with rfl | hmem
        · simp only [emitBB] at ha
          split at ha
          · cases ha
          · rename_i lsc mc instsc hc
            exact emitInsts_each_ok _ _ _ _ _ _ _ hc
        · exact ih _ _ _ hb bb hmem

theorem emitFuncs_each_ok (can_encode_imm : Int → Bool) (l : List MachineFunc) (fi : Nat)
    (m : IndexMapper) (r : List Line × IndexMapper × List MachineFunc)
    (h : emitFuncs can_encode_imm fi l m = .ok r) :
    ∀ f ∈ l, ∀ bb ∈ f.bb, ∀ inst ∈ bb.insts,
      ∃ m0 r0, emitInst can_encode_imm f.sp_offset m0 inst = .ok r0 := by
  induction l generalizing fi m r with
  | nil => intro f hf; cases hf
  | cons x rest ih =>
    simp only [emitFuncs] at h
    split at h
    · cases h
    · rename_i lsa ma fa ha
      split at h
      · cases h
      · rename_i lsb mb restb hb
        intro f hf
        rcases List.mem_cons.mp hf with rfl | hmem
        · simp only [emitFunc] at ha
          split at ha
          · cases ha
          · rename_i lsc mc bbc hc
            exact emitBBs_each_ok _ _ _ _ _ _ _ hc
        · exact ih _ _ _ hb f hmem

/-- Every instruction of a program whose emission completes was emitted, from some label map,
without failing. -/
theorem emit_each_ok (can_encode_imm : Int → Bool) (p : MachineProgram)
    (r : List Line × MachineProgram) (h : emit can_encode_imm p = .ok r) :
    ∀ f ∈ p.func, ∀ bb ∈ f.bb, ∀ inst ∈ bb.insts,
      ∃ m0 r0, emitInst can_encode_imm f.sp_offset m0 inst = .ok r0 := by
  simp only [emit] at h
  split at h
  · cases h
  · rename_i lsa ma funca ha
    exact emitFuncs_each_ok _ _ _ _ _ ha

/-- C11: emitting a program that holds a `Unary` in some block of some function fails; the
dispatch has no line for a `Unary`, it ends the run. -/
theorem emit_fails_on_unary (can_encode_imm : Int → Bool) (p : MachineProgram)
    (f : MachineFunc) (bb : MachineBB) (tag : Tag) (dst rhs : MachineOperand)
    (hf : f ∈ p.func) (hb : bb ∈ f.bb) (hi : MachineInst.MIUnary tag dst rhs ∈ bb.insts) :
    (∃ e, emit can_encode_imm p = .error e)
      ∧ ∀ sp_offset bb_index, emitInst can_encode_imm sp_offset bb_index
          (.MIUnary tag dst rhs) = .error Fatal.unreachable := by
  refine ⟨?_, fun _ _ => rfl⟩
  cases hr : emit can_encode_imm p with
  | error e => exact ⟨e, rfl⟩
  | ok r =>
    obtain ⟨m0, r0, h0⟩ := emit_each_ok can_encode_imm p r hr f hf bb hb _ hi
    simp [emitInst] at h0

/-- C11, witness: `unaryProgram` ends in the fatal exit of the `Unary` case. -/
theorem emit_fails_on_unary_witness :
    emit armModifiedImmediate unaryProgram = .error Fatal.unreachable
      ∧ ∃ e, emit armModifiedImmediate unaryProgram = .error e :=
  ⟨rfl,
    (emit_fails_on_unary armModifiedImmediate unaryProgram _ _ (.Other 0) r0 r1
      (List.mem_singleton.mpr rfl) (List.mem_singleton.mpr rfl) (List.mem_cons_self _ _)).1⟩

/-- C12: `compute_stack_info` fails exactly when some entry of the fixup list is not a `Move`
with an immediate right-hand side (a null entry, another variant, a `Move` from a register),
and completes exactly when every entry has that shape. -/
theorem compute_stack_info_fails_iff (get_def : MachineInst → List MachineOperand)
    (f : MachineFunc) :
    ((∃ err, compute_stack_info get_def f = .error err)
        ↔ ∃ e ∈ f.sp_arg_fixup, fixupWellShaped f e = false)
      ∧ ((∃ f1, compute_stack_info get_def f = .ok f1)
        ↔ ∀ e ∈ f.sp_arg_fixup, fixupWellShaped f e = true) := by
  have hok : (∃ f1, compute_stack_info get_def f = .ok f1)
      ↔ ∀ e ∈ f.sp_arg_fixup, fixupWellShaped f e = true := by
    constructor
    · rintro ⟨f1, h1⟩
      simp only [compute_stack_info] at h1
      intro e he
      exact wellShaped_of_fixupAll _ _ _ _ h1 e he
    · intro hall
      obtain ⟨g1, hg1, _⟩ := fixupAll_of_wellShaped
        (((scanBBs get_def f.used_callee_saved_regs f.bb).card : Int) + 1) f.sp_arg_fixup
        { f with used_callee_saved_regs := scanBBs get_def f.used_callee_saved_regs f.bb } hall
      exact ⟨g1, hg1⟩
  refine ⟨?_, hok⟩
  constructor
  · rintro ⟨err, herr⟩
    by_contra hno
    have hall : ∀ e ∈ f.sp_arg_fixup, fixupWellShaped f e = true := by
      intro e he
      cases hw : fixupWellShaped f e with
      | true => rfl
      | false => exact absurd ⟨e, he, hw⟩ hno
    obtain ⟨f1, h1⟩ := hok.mpr hall
    rw [herr] at h1
    cases h1
  · rintro ⟨e, he, hw⟩
    cases hr : compute_stack_info get_def f with
    | error err => exact ⟨err, rfl⟩
    | ok f1 =>
      have := hok.mp ⟨f1, hr⟩ e he
      rw [hw] at this
      cases this

/-- C12, witness: a null entry and an entry designating a `Return` end in `UNREACHABLE`, an
entry designating `mov r0, r1` fails the `assert`, and the well-shaped `fixupFunc 0` passes. -/
theorem compute_stack_info_fails_iff_witness :
    compute_stack_info exampleGetDef { fixupFunc 0 with sp_arg_fixup := [none] }
        = .error Fatal.unreachable
      ∧ compute_stack_info exampleGetDef { fixupFunc 0 with sp_arg_fixup := [some (0, 1)] }
        = .error Fatal.unreachable
      ∧ compute_stack_info exampleGetDef registerFixupFunc = .error Fatal.assertFailed
      ∧ compute_stack_info exampleGetDef (fixupFunc 0) = .ok (fixupFunc 4)
      ∧ ((∃ err, compute_stack_info exampleGetDef registerFixupFunc = .error err)
          ↔ ∃ e ∈ registerFixupFunc.sp_arg_fixup, fixupWellShaped registerFixupFunc e = false) :=
  ⟨rfl, rfl, rfl, rfl, (compute_stack_info_fails_iff exampleGetDef registerFixupFunc).1⟩

/-- C13 (the code at the failing input): a `Binary` with operator `Mod` is written with the
mnemonic `mod`, here as the line `mod r0, r1, r2`. -/
theorem mod_is_written_as_mod :
    emitInst armModifiedImmediate 0 { mapping := [] }
        (.MIBinary .Mod r0 r1 { state := OperandState.PreColored, value := 2 })
      = .ok ([Line.binary "mod" r0 r1 { state := OperandState.PreColored, value := 2 }],
            { mapping := [] },
            .MIBinary .Mod r0 r1 { state := OperandState.PreColored, value := 2 })
      ∧ renderLines showOperand showCondition
          [Line.binary "mod" r0 r1 { state := OperandState.PreColored, value := 2 }]
        = "\tmod\tr0, r1, r2\n" :=
  ⟨rfl, by decide⟩

/-- What the guard of the `Mul` case ensures: when a `Mul` is emitted without failing, one
`mul` line is written whose destination is the instruction's `dst`, and `dst` differs, as an
operand (state and value together), from the first source on the line, which is the `lhs` the
instruction is left with. -/
theorem mul_line_dst_ne_first_source (can_encode_imm : Int → Bool) (sp_offset : Int)
    (bb_index : IndexMapper) (dst lhs rhs : MachineOperand) (ls : List Line)
    (m1 : IndexMapper) (inst1 : MachineInst)
    (h : emitInst can_encode_imm sp_offset bb_index (.MIBinary .Mul dst lhs rhs)
      = .ok (ls, m1, inst1)) :
    ∃ a b, ls = [Line.binary "mul" dst a b] ∧ inst1 = .MIBinary .Mul dst a b ∧ dst ≠ a
      ∧ (Line.binary "mul" dst a b).binaryOperands = some (dst, a, b) := by
  by_cases h1 : dst = lhs
  · by_cases h2 : dst = rhs
    · rw [emitInst_mul_same _ _ _ _ _ _ h1 h2] at h
      cases h
    · rw [emitInst_mul_swap _ _ _ _ _ _ h1 h2] at h
      cases h
      exact ⟨rhs, lhs, rfl, rfl, h2, rfl⟩
  · rw [emitInst_mul_keep _ _ _ _ _ _ h1] at h
    cases h
    exact ⟨lhs, rhs, rfl, rfl, h1, rfl⟩

/-- C15 (the code at the failing input): for `Mul` with `dst` the allocated register 0, `lhs`
the pre-coloured register 0 and `rhs = r1`, the guard `dst == lhs` compares two operands that
differ in their state and does not fire: the line is written without a swap and without a
failure, its destination and its first source are both register 0, and it reads
`mul r0, r0, r1`. -/
theorem mul_guard_misses_same_register :
    emitInst armModifiedImmediate 0 { mapping := [] }
        (.MIBinary .Mul { state := OperandState.Allocated, value := 0 }
          { state := OperandState.PreColored, value := 0 } r1)
      = .ok ([Line.binary "mul" { state := OperandState.Allocated, value := 0 }
                { state := OperandState.PreColored, value := 0 } r1],
            { mapping := [] },
            .MIBinary .Mul { state := OperandState.Allocated, value := 0 }
              { state := OperandState.PreColored, value := 0 } r1)
      ∧ ({ state := OperandState.Allocated, value := 0 } : MachineOperand)
          ≠ { state := OperandState.PreColored, value := 0 }
      ∧ ({ state := OperandState.Allocated, value := 0 } : MachineOperand).value
          = ({ state := OperandState.PreColored, value := 0 } : MachineOperand).value
      ∧ ({ state := OperandState.Allocated, value := 0 } : MachineOperand).is_imm = false
      ∧ ({ state := OperandState.PreColored, value := 0 } : MachineOperand).is_imm = false
      ∧ renderLines showOperand showCondition
          [Line.binary "mul" { state := OperandState.Allocated, value := 0 }
            { state := OperandState.PreColored, value := 0 } r1]
        = "\tmul\tr0, r0, r1\n" :=
  ⟨rfl, by decide, rfl, rfl, rfl, by decide⟩

/-- C17: for a global whose flattened initializer is empty the emitter writes, after the
label, exactly one data directive, `.long 0`: the object has one word although the
initializer has none. -/
theorem emitDecl_empty (name : String) :
    emitDecl { name := name, flatten_init := [] }
        = [Line.declGlobal name, Line.declType name, Line.label name, Line.long 0]
      ∧ emitValues [] = [Line.long 0]
      ∧ (decodeValues (emitDecl { name := name, flatten_init := [] })).length = 1
      ∧ ([] : List Int).length = 0
      ∧ ∀ showOp showCond, renderLines showOp showCond (emitValues []) = "\t.long\t0\n" := by
  refine ⟨rfl, rfl, rfl, rfl, fun showOp showCond => ?_⟩
  have h : emitValues [] = [Line.long 0] := rfl
  rw [h]
  simp only [renderLines, List.map_cons, List.map_nil, Line.render]
  decide

theorem emitInst_move_split (can_encode_imm : Int → Bool) (sp_offset : Int)
    (bb_index : IndexMapper) (cond : ArmCond) (dst rhs : MachineOperand)
    (h : rhs.state = OperandState.Immediate ∧ can_encode_imm rhs.value = false) :
    emitInst can_encode_imm sp_offset bb_index (.MIMove cond dst rhs)
      = .ok (splitMoveLines dst rhs.value, bb_index, .MIMove cond dst rhs) := by
  have hlt := toU32_lt rhs.value
  simp only [emitInst, splitMoveLines]
  rw [if_pos h, land_ffff, shiftRight_16, wrapI32_of_lt _ (by omega), wrapI32_of_lt _ (by omega)]
  have : (toU32 rhs.value > 65535) ↔ (toU32 rhs.value / 65536 ≠ 0) := by omega
  simp only [this]

theorem emitInst_move_plain (can_encode_imm : Int → Bool) (sp_offset : Int)
    (bb_index : IndexMapper) (cond : ArmCond) (dst rhs : MachineOperand)
    (h : ¬ (rhs.state = OperandState.Immediate ∧ can_encode_imm rhs.value = false)) :
    emitInst can_encode_imm sp_offset bb_index (.MIMove cond dst rhs)
      = .ok ([Line.mov cond dst rhs], bb_index, .MIMove cond dst rhs) := by
  simp only [emitInst]
  rw [if_neg h]

theorem render_splitMoveLines (showOp : MachineOperand → String)
    (showCond showCond1 : ArmCond → String) (dst : MachineOperand) (v : Int) :
    renderLines showOp showCond (splitMoveLines dst v)
      = renderLines showOp showCond1 (splitMoveLines dst v) := by
  unfold renderLines splitMoveLines
  by_cases hz : toU32 v / 65536 ≠ 0
  · rw [if_pos hz]
    rfl
  · rw [if_neg hz]
    rfl

/-- C16: on the split path (an immediate `can_encode_imm` rejects) the lines written are the
`movw`/`movt` lines whatever the condition of the `Move`, and their text does not involve the
condition printer at all; on the other path the line is `mov` followed by the condition. -/
theorem move_cond_only_on_mov (can_encode_imm : Int → Bool) (sp_offset : Int)
    (bb_index : IndexMapper) (cond cond1 : ArmCond) (dst rhs : MachineOperand) :
    ((rhs.state = OperandState.Immediate ∧ can_encode_imm rhs.value = false) →
        emitInst can_encode_imm sp_offset bb_index (.MIMove cond dst rhs)
            = .ok (splitMoveLines dst rhs.value, bb_index, .MIMove cond dst rhs)
          ∧ emitInst can_encode_imm sp_offset bb_index (.MIMove cond1 dst rhs)
            = .ok (splitMoveLines dst rhs.value, bb_index, .MIMove cond1 dst rhs)
          ∧ ∀ (showOp : MachineOperand → String) (showCond showCond1 : ArmCond → String),
              renderLines showOp showCond (splitMoveLines dst rhs.value)
                = renderLines showOp showCond1 (splitMoveLines dst rhs.value))
      ∧ (¬ (rhs.state = OperandState.Immediate ∧ can_encode_imm rhs.value = false) →
          emitInst can_encode_imm sp_offset bb_index (.MIMove cond dst rhs)
            = .ok ([Line.mov cond dst rhs], bb_index, .MIMove cond dst rhs))
      ∧ (∀ (showOp : MachineOperand → String) (showCond : ArmCond → String)
            (d o : MachineOperand),
          Line.render showOp showCond (Line.movw d o)
              = "\tmovw\t" ++ showOp d ++ ", " ++ showOp o ++ "\n"
            ∧ Line.render showOp showCond (Line.movt d o)
              = "\tmovt\t" ++ showOp d ++ ", " ++ showOp o ++ "\n"
            ∧ Line.render showOp showCond (Line.mov cond d o)
              = "\tmov" ++ showCond cond ++ "\t" ++ showOp d ++ ", " ++ showOp o ++ "\n") := by
  refine ⟨fun h => ⟨emitInst_move_split _ _ _ _ _ _ h, emitInst_move_split _ _ _ _ _ _ h,
    fun showOp showCond showCond1 => render_splitMoveLines _ _ _ _ _⟩,
    fun h => emitInst_move_plain _ _ _ _ _ _ h, fun _ _ _ _ => ⟨rfl, rfl, rfl⟩⟩

/-- C16, witness: `0x12345` with conditions 1 and 2 gives the same `movw`/`movt` text; the
encodable `5` with condition 1 gives `mov1 r0, #5` under a printer that shows the code. -/
theorem move_cond_only_on_mov_witness :
    (OperandState.Immediate = OperandState.Immediate ∧ armModifiedImmediate 74565 = false)
      ∧ emitInst armModifiedImmediate 0 { mapping := [] }
          (.MIMove { code := 1 } r0 { state := OperandState.Immediate, value := 74565 })
        = .ok (splitMoveLines r0 74565, { mapping := [] },
            .MIMove { code := 1 } r0 { state := OperandState.Immediate, value := 74565 })
      ∧ emitInst armModifiedImmediate 0 { mapping := [] }
          (.MIMove { code := 2 } r0 { state := OperandState.Immediate, value := 74565 })
        = .ok (splitMoveLines r0 74565, { mapping := [] },
            .MIMove { code := 2 } r0 { state := OperandState.Immediate, value := 74565 })
      ∧ renderLines showOperand (fun c => toString c.code) (splitMoveLines r0 74565)
        = "\tmovw\tr0, #9029\n\tmovt\tr0, #1\n"
      ∧ ¬ (OperandState.Immediate = OperandState.Immediate ∧ armModifiedImmediate 5 = false)
      ∧ emitInst armModifiedImmediate 0 { mapping := [] }
          (.MIMove { code := 1 } r0 { state := OperandState.Immediate, value := 5 })
        = .ok ([Line.mov { code := 1 } r0 { state := OperandState.Immediate, value := 5 }],
            { mapping := [] },
            .MIMove { code := 1 } r0 { state := OperandState.Immediate, value := 5 })
      ∧ renderLines showOperand (fun c => toString c.code)
          [Line.mov { code := 1 } r0 { state := OperandState.Immediate, value := 5 }]
        = "\tmov1\tr0, #5\n" :=
  ⟨by decide,
    ((move_cond_only_on_mov armModifiedImmediate 0 { mapping := [] } { code := 1 } { code := 2 }
      r0 { state := OperandState.Immediate, value := 74565 }).1 (by decide)).1,
    ((move_cond_only_on_mov armModifiedImmediate 0 { mapping := [] } { code := 1 } { code := 2 }
      r0 { state := OperandState.Immediate, value := 74565 }).1 (by decide)).2.1,
    by decide, by decide,
    (move_cond_only_on_mov armModifiedImmediate 0 { mapping := [] } { code := 1 } { code := 2 }
      r0 { state := OperandState.Immediate, value := 5 }).2.1 (by decide),
    by decide⟩

/-! ## Frame of the stack-frame finaliser -/

theorem setInst_blocks (f : MachineFunc) (ref : InstRef) (inst : MachineInst) :
    (f.setInst ref inst).bb.map MachineBB.frame = f.bb.map MachineBB.frame
      ∧ (f.setInst ref inst).bb.map (fun bb => bb.insts.length)
          = f.bb.map (fun bb => bb.insts.length) := by
  constructor
  · apply List.ext_getElem?
    intro n
    simp only [MachineFunc.setInst, List.getElem?_map, List.getElem?_modify]
    cases f.bb[n]? with
    | none => rfl
    | some bb =>
      by_cases h : ref.1 = n
      · simp [h, MachineBB.frame]
      · simp [h]
  · apply List.ext_getElem?
    intro n
    simp only [MachineFunc.setInst, List.getElem?_map, List.getElem?_modify]
    cases f.bb[n]? with
    | none => rfl
    | some bb =>
      by_cases h : ref.1 = n
      · simp [h]
      · simp [h]

/-- The loop over the fixup list leaves the sequence of blocks, and the length of the
instruction sequence of each block, as they were. -/
theorem fixupAll_blocks (s : Int) (rs : List (Option InstRef)) (g g1 : MachineFunc)
    (h : fixupAll s rs g = .ok g1) :
    g1.bb.map MachineBB.frame = g.bb.map MachineBB.frame
      ∧ g1.bb.map (fun bb => bb.insts.length) = g.bb.map (fun bb => bb.insts.length) := by
  induction rs generalizing g with
  | nil =>
    simp only [fixupAll] at h
    cases h
    exact ⟨rfl, rfl⟩
  | cons e rest ih =>
    rcases fixupInst_eq g s e with ⟨_, ref0, inst0, _, _, hok⟩ | ⟨_, err, herr⟩
    · simp only [fixupAll, hok] at h
      obtain ⟨h1, h2⟩ := ih _ h
      obtain ⟨h3, h4⟩ := setInst_blocks g ref0 (addToMoveImm (fixupAmount g.stack_size s) inst0)
      exact ⟨h1.trans h3, h2.trans h4⟩
    · simp only [fixupAll, herr] at h
      cases h

theorem addToMoveImm_iterate_cases (a : Int) (n : Nat) (inst : MachineInst) :
    (addToMoveImm a)^[n] inst = inst
      ∨ ∃ cond dst rhs v, inst = .MIMove cond dst rhs
          ∧ (addToMoveImm a)^[n] inst = .MIMove cond dst { rhs with value := v } := by
  induction n generalizing inst with
  | zero => exact Or.inl rfl
  | succ k ih =>
    rw [Function.iterate_succ_apply]
    cases inst with
    | MIMove cond dst rhs =>
      right
      rcases ih (addToMoveImm a (.MIMove cond dst rhs)) with h | ⟨c, d, r, v, h1, h2⟩
      · exact ⟨cond, dst, rhs, _, rfl, h⟩
      · simp only [addToMoveImm, MachineInst.MIMove.injEq] at h1
        obtain ⟨rfl, rfl, rfl⟩ := h1
        exact ⟨cond, dst, rhs, v, rfl, h2⟩
    | _ =>
      left
      exact Function.iterate_fixed rfl k

/-- C18: a completed `compute_stack_info` only grows `used_callee_saved_regs`, every register
added lying in `r4..r11`; it leaves `name`, `stack_size`, `sp_offset` and the fixup list as
they were; it leaves the sequence of blocks, every field of a block other than its
instructions, and the number of instructions of each block as they were; an instruction not
in the fixup list is unchanged, and any instruction is either unchanged or a `Move` that
differs from the one before only in the value of its right-hand side; with an empty fixup
list all blocks, hence all instructions, are unchanged. -/
theorem compute_stack_info_frame (get_def : MachineInst → List MachineOperand)
    (f f1 : MachineFunc) (h : compute_stack_info get_def f = .ok f1) :
    f.used_callee_saved_regs ⊆ f1.used_callee_saved_regs
      ∧ (∀ r ∈ f1.used_callee_saved_regs, r ∉ f.used_callee_saved_regs → 4 ≤ r ∧ r ≤ 11)
      ∧ f1.name = f.name ∧ f1.stack_size = f.stack_size ∧ f1.sp_offset = f.sp_offset
      ∧ f1.sp_arg_fixup = f.sp_arg_fixup
      ∧ f1.bb.map MachineBB.frame = f.bb.map MachineBB.frame
      ∧ f1.bb.map (fun bb => bb.insts.length) = f.bb.map (fun bb => bb.insts.length)
      ∧ (∀ ref, some ref ∉ f.sp_arg_fixup → f1.instAt ref = f.instAt ref)
      ∧ (∀ ref inst1, f1.instAt ref = some inst1 →
          ∃ inst, f.instAt ref = some inst
            ∧ (inst1 = inst
                ∨ ∃ cond dst rhs v, inst = .MIMove cond dst rhs
                    ∧ inst1 = .MIMove cond dst { rhs with value := v }))
      ∧ (f.sp_arg_fixup = [] → f1.bb = f.bb) := by
  simp only [compute_stack_info] at h
  have hshape := wellShaped_of_fixupAll _ _ _ _ h
  obtain ⟨g1, hok, hframe, hinst⟩ := fixupAll_of_wellShaped _ _ _ hshape
  rw [h] at hok
  cases hok
  obtain ⟨hb1, hb2⟩ := fixupAll_blocks _ _ _ _ h
  have hused : f1.used_callee_saved_regs
      = f.used_callee_saved_regs ∪ definedCalleeSaved get_def f := by
    rw [hframe]
    exact scanBBs_eq get_def f _
  refine ⟨?_, ?_, by rw [hframe], by rw [hframe], by rw [hframe], by rw [hframe], hb1, hb2,
    ?_, ?_, ?_⟩
  · rw [hused]
    exact Finset.subset_union_left
  · intro r hr hnot
    rw [hused, Finset.mem_union] at hr
    rcases hr with hr | hr
    · exact absurd hr hnot
    · simp only [definedCalleeSaved, Finset.mem_filter, Finset.mem_Icc] at hr
      exact hr.1
  · intro ref hnot
    have hc : List.count (some ref) f.sp_arg_fixup = 0 := List.count_eq_zero_of_not_mem hnot
    rw [hinst ref]
    have hc1 : List.count (some ref)
        ({ f with used_callee_saved_regs :=
            (scanBBs get_def f.used_callee_saved_regs f.bb) } : MachineFunc).sp_arg_fixup = 0 := hc
    rw [hc1]
    simp only [Function.iterate_zero, Option.map_id]
    rfl
  · intro ref inst1 h1
    rw [hinst ref] at h1
    have hfi : MachineFunc.instAt ({ f with used_callee_saved_regs :=
        (scanBBs get_def f.used_callee_saved_regs f.bb) } : MachineFunc) ref = f.instAt ref := rfl
    rw [hfi] at h1
    cases hi : f.instAt ref with
    | none => rw [hi] at h1; cases h1
    | some inst =>
      rw [hi] at h1
      simp only [Option.map_some', Option.some.injEq] at h1
      refine ⟨inst, rfl, ?_⟩
      rcases addToMoveImm_iterate_cases _ _ inst with h2 | ⟨c, d, r, v, h2, h3⟩
      · left
        rw [← h1, h2]
      · right
        exact ⟨c, d, r, v, h2, by rw [← h1, h3]⟩
  · intro hnil
    rw [hnil] at h
    simp only [fixupAll] at h
    cases h
    rfl

/-- C18, witness: on `calleeFunc 0 ∅` the pass adds `r4` to the set and changes the immediate
of the fixup from 0 to 24; the second move and the return stay as they were. -/
theorem compute_stack_info_frame_witness :
    compute_stack_info exampleGetDef (calleeFunc 0 ∅) = .ok (calleeFunc 24 {4})
      ∧ (calleeFunc 0 ∅).used_callee_saved_regs ⊆ (calleeFunc 24 {4}).used_callee_saved_regs
      ∧ (calleeFunc 24 {4}).bb.map MachineBB.frame = (calleeFunc 0 ∅).bb.map MachineBB.frame
      ∧ (calleeFunc 24 {4}).instAt (0, 1) = (calleeFunc 0 ∅).instAt (0, 1) :=
  ⟨rfl,
    (compute_stack_info_frame exampleGetDef (calleeFunc 0 ∅) (calleeFunc 24 {4}) rfl).1,
    (compute_stack_info_frame exampleGetDef (calleeFunc 0 ∅)
      (calleeFunc 24 {4}) rfl).2.2.2.2.2.2.1,
    (compute_stack_info_frame exampleGetDef (calleeFunc 0 ∅)
      (calleeFunc 24 {4}) rfl).2.2.2.2.2.2.2.2.1 (0, 1) (by decide)⟩

/-! ## Block labels -/

end TrivialCompiler
